import Mathlib

/-!
Verification of the HTML-processing pipeline (problem3: `processor/process.py`
and `analyzer/analyze.py`).

Shallow embedding conventions:
* Strings (text, filenames, tokens) are lists of Unicode code points (`List Nat`).
  `strCodes` converts a Lean string literal to this form.
* Raw file contents are byte lists (`List Nat`, each element < 256).
* Python `float` arithmetic on the values computed here (averages, Jaccard
  ratios, rounding to k decimal digits) is modelled with exact rationals `ℚ`;
  `pyRound k` models Python's `round(x, k)` (round-half-to-even on the exact
  rational value; binary floating-point artifacts are out of scope).
* The character-level predicates (`\w`, `.lower()`, case-insensitive matching,
  `str.strip()`) are modelled on the fragment of Unicode exercised by this
  development: the full ASCII/Latin-1 range plus U+0130 (LATIN CAPITAL LETTER
  I WITH DOT ABOVE), whose CPython `str.lower()` image is the two code points
  i + U+0307 (COMBINING DOT ABOVE) — the case that makes the Processor's and
  the Analyzer's token counts diverge.  On this fragment the embedded
  predicates agree exactly with CPython.
-/

namespace Pipeline

/-- Code points of a Lean string literal, used to write embedded strings readably. -/
def strCodes (s : String) : List Nat := s.toList.map Char.toNat

/-- Python `\w` with `re.UNICODE` (Unicode alphanumerics and underscore), on
the code points exercised in this development: the ASCII alphanumerics and
underscore, plus U+0130 (code 304), which is a Unicode letter.  U+0307
(COMBINING DOT ABOVE, code 775, category Mn) is not alphanumeric in CPython
and is not matched by `\w`; no other non-ASCII code point of the fragment is
a word character. -/
def isWordChar (n : Nat) : Bool :=
  (48 ≤ n && n ≤ 57) || (65 ≤ n && n ≤ 90) || (97 ≤ n && n ≤ 122) ||
    (n == 95) || (n == 304)

/-- ASCII-range lower-casing, used only to model the case-insensitive
comparison `re.IGNORECASE` performs between the source's ASCII-literal regex
patterns and the input. -/
def asciiLower (n : Nat) : Nat := if 65 ≤ n && n ≤ 90 then n + 32 else n

/-- CPython `str.lower()` of one code point, on the fragment exercised here:
ASCII A-Z map to a-z, and U+0130 (304) expands to the two code points
[105, 775] (i + COMBINING DOT ABOVE), exactly as in CPython's full case
mapping; the remaining code points of the fragment are fixed. -/
def pyLowerChar (n : Nat) : List Nat :=
  if 65 ≤ n && n ≤ 90 then [n + 32]
  else if n == 304 then [105, 775]
  else [n]

/-- `text.lower()`: concatenation of the per-code-point full case mapping. -/
def pyLower : List Nat → List Nat
  | [] => []
  | c :: rest => pyLowerChar c ++ pyLower rest

/-- Characters stripped by Python `str.strip()` (ASCII/Latin-1 whitespace). -/
def isPyWs (n : Nat) : Bool :=
  (9 ≤ n && n ≤ 13) || (28 ≤ n && n ≤ 31) || (n == 32) || (n == 133) || (n == 160)

/-- The literal regex class `[ \t\f\v]` from `process.py` line 133. -/
def isHWs (n : Nat) : Bool := (n == 32) || (n == 9) || (n == 12) || (n == 11)

/-- Sentence-splitting punctuation: the regex class `[.!?]`. -/
def isSentPunct (n : Nat) : Bool := (n == 46) || (n == 33) || (n == 63)

/-- ASCII digit. -/
def isDigitN (n : Nat) : Bool := 48 ≤ n && n ≤ 57

/-- Python `str.strip()` on a code-point list. -/
def stripList (l : List Nat) : List Nat :=
  (((l.dropWhile isPyWs).reverse.dropWhile isPyWs)).reverse

/-- Valid UTF-8 continuation byte. -/
def isCont (b : Nat) : Bool := 128 ≤ b && b ≤ 191

/-- Allowed second byte of a 3-byte UTF-8 sequence whose first byte is `b1`
(excludes overlong encodings and surrogates, as CPython does). -/
def cont3ok (b1 b2 : Nat) : Bool :=
  if b1 == 224 then 160 ≤ b2 && b2 ≤ 191
  else if b1 == 237 then 128 ≤ b2 && b2 ≤ 159
  else isCont b2

/-- Allowed second byte of a 4-byte UTF-8 sequence whose first byte is `b1`. -/
def cont4ok (b1 b2 : Nat) : Bool :=
  if b1 == 240 then 144 ≤ b2 && b2 ≤ 191
  else if b1 == 244 then 128 ≤ b2 && b2 ≤ 143
  else isCont b2

/-- `bytes.decode('utf-8', errors='ignore')` (process.py line 164): best-effort
UTF-8 decoding that silently drops invalid byte sequences (the start byte plus
any valid continuation bytes already consumed), then resumes. Total on every
byte list; never fails. -/
def decodeUtf8Ignore : List Nat → List Nat
  | [] => []
  | b :: rest =>
    if b < 128 then b :: decodeUtf8Ignore rest
    else if 194 ≤ b && b ≤ 223 then
      match rest with
      | [] => []
      | b2 :: r2 =>
        if isCont b2 then ((b - 192) * 64 + (b2 - 128)) :: decodeUtf8Ignore r2
        else decodeUtf8Ignore (b2 :: r2)
    else if 224 ≤ b && b ≤ 239 then
      match rest with
      | [] => []
      | b2 :: r2 =>
        if cont3ok b b2 then
          match r2 with
          | [] => []
          | b3 :: r3 =>
            if isCont b3 then
              ((b - 224) * 4096 + (b2 - 128) * 64 + (b3 - 128)) :: decodeUtf8Ignore r3
            else decodeUtf8Ignore (b3 :: r3)
        else decodeUtf8Ignore (b2 :: r2)
    else if 240 ≤ b && b ≤ 244 then
      match rest with
      | [] => []
      | b2 :: r2 =>
        if cont4ok b b2 then
          match r2 with
          | [] => []
          | b3 :: r3 =>
            if isCont b3 then
              match r3 with
              | [] => []
              | b4 :: r4 =>
                if isCont b4 then
                  ((b - 240) * 262144 + (b2 - 128) * 4096 + (b3 - 128) * 64 + (b4 - 128)) ::
                    decodeUtf8Ignore r4
                else decodeUtf8Ignore (b4 :: r4)
            else decodeUtf8Ignore (b3 :: r3)
        else decodeUtf8Ignore (b2 :: r2)
    else decodeUtf8Ignore rest
termination_by l => l.length
decreasing_by
  all_goals simp_all
  all_goals omega

/-- Follows the spec's words ("best-effort decoded as text with invalid byte
sequences replaced"): like `decodeUtf8Ignore` but each invalid or truncated
sequence yields U+FFFD (65533) instead of being dropped.  Used only to compare
the spec's claimed decoding against the source's actual one. -/
def specDecodeReplace : List Nat → List Nat
  | [] => []
  | b :: rest =>
    if b < 128 then b :: specDecodeReplace rest
    else if 194 ≤ b && b ≤ 223 then
      match rest with
      | [] => [65533]
      | b2 :: r2 =>
        if isCont b2 then ((b - 192) * 64 + (b2 - 128)) :: specDecodeReplace r2
        else 65533 :: specDecodeReplace (b2 :: r2)
    else if 224 ≤ b && b ≤ 239 then
      match rest with
      | [] => [65533]
      | b2 :: r2 =>
        if cont3ok b b2 then
          match r2 with
          | [] => [65533]
          | b3 :: r3 =>
            if isCont b3 then
              ((b - 224) * 4096 + (b2 - 128) * 64 + (b3 - 128)) :: specDecodeReplace r3
            else 65533 :: specDecodeReplace (b3 :: r3)
        else 65533 :: specDecodeReplace (b2 :: r2)
    else if 240 ≤ b && b ≤ 244 then
      match rest with
      | [] => [65533]
      | b2 :: r2 =>
        if cont4ok b b2 then
          match r2 with
          | [] => [65533]
          | b3 :: r3 =>
            if isCont b3 then
              match r3 with
              | [] => [65533]
              | b4 :: r4 =>
                if isCont b4 then
                  ((b - 240) * 262144 + (b2 - 128) * 4096 + (b3 - 128) * 64 + (b4 - 128)) ::
                    specDecodeReplace r4
                else 65533 :: specDecodeReplace (b4 :: r4)
            else 65533 :: specDecodeReplace (b3 :: r3)
        else 65533 :: specDecodeReplace (b2 :: r2)
    else 65533 :: specDecodeReplace rest
termination_by l => l.length
decreasing_by
  all_goals simp_all
  all_goals omega

/-- `re.findall(r'\b\w+\b', text)`: the list of maximal runs of word
characters (process.py `tokenize_words`, line 142). -/
def tokenize : List Nat → List (List Nat)
  | [] => []
  | c :: rest =>
    if isWordChar c then
      (c :: rest.takeWhile isWordChar) :: tokenize (rest.dropWhile isWordChar)
    else tokenize rest
termination_by l => l.length
decreasing_by
  all_goals simp only [List.length_cons]
  all_goals try omega
  all_goals exact Nat.lt_succ_of_le ((List.dropWhile_sublist _).length_le)

/-- `re.findall(r'\b\w+\b', text.lower())` (analyze.py `tokenize_lower`,
line 124). -/
def tokenizeLower (l : List Nat) : List (List Nat) := tokenize (pyLower l)

/-- `re.split(r'[.!?]+', text)`: split on maximal runs of sentence
punctuation. -/
def splitPunct : List Nat → List (List Nat)
  | [] => [[]]
  | c :: rest =>
    if isSentPunct c then [] :: splitPunct (rest.dropWhile isSentPunct)
    else
      match splitPunct rest with
      | [] => [[c]]
      | s :: ss => (c :: s) :: ss
termination_by l => l.length
decreasing_by
  all_goals simp only [List.length_cons]
  all_goals try omega
  all_goals exact Nat.lt_succ_of_le ((List.dropWhile_sublist _).length_le)

/-- `[p.strip() for p in re.split(r'[.!?]+', text) if p.strip()]`
(process.py `split_sentences` line 144, analyze.py `sentences_in_text`
line 126: the two functions are identical). -/
def sentencesIn (t : List Nat) : List (List Nat) :=
  ((splitPunct t).map stripList).filter (fun p => !p.isEmpty)

/-- `re.split(r'\n{2,}', text)`: split on runs of two or more newlines. -/
def splitNl2 : List Nat → List (List Nat)
  | [] => [[]]
  | c :: rest =>
    if c = 10 ∧ rest.head? = some 10 then
      [] :: splitNl2 (rest.tail.dropWhile (· == 10))
    else
      match splitNl2 rest with
      | [] => [[c]]
      | s :: ss => (c :: s) :: ss
termination_by l => l.length
decreasing_by
  all_goals simp only [List.length_cons]
  all_goals try omega
  all_goals
    exact Nat.lt_succ_of_le (le_trans ((List.dropWhile_sublist _).length_le)
      (by rw [List.length_tail]; omega))

/-- `count_paragraphs_from_text_preserving_double_newlines` (process.py
lines 149-156): 0 for whitespace-only text, else the number of blocks with a
non-whitespace character among the blocks separated by 2+ newlines. -/
def countParagraphs (t : List Nat) : Nat :=
  if stripList t = [] then 0
  else ((splitNl2 (stripList t)).filter (fun p => !(stripList p).isEmpty)).length

/-- Case-insensitive match of the literal `pat` at the head of `l` (the ASCII
fragment of `re.IGNORECASE`); returns the rest of `l` after the match. -/
def matchCI : List Nat → List Nat → Option (List Nat)
  | [], l => some l
  | _ :: _, [] => none
  | p :: ps, c :: cs => if asciiLower p = asciiLower c then matchCI ps cs else none

theorem matchCI_length {pat l r : List Nat} (h : matchCI pat l = some r) :
    r.length + pat.length = l.length := by
  induction pat generalizing l with
  | nil =>
    simp only [matchCI, Option.some.injEq] at h
    simp [h]
  | cons p ps ih =>
    cases l with
    | nil => simp [matchCI] at h
    | cons c cs =>
      simp only [matchCI] at h
      split at h
      · have := ih h
        simp only [List.length_cons]
        omega
      · exact absurd h (by simp)

/-- Search for the first case-insensitive occurrence of `pat` in `l`,
returning the rest of `l` after it — the lazy `.*?pat` step of the
script/style-element regexes (DOTALL). -/
def findCI (pat : List Nat) : List Nat → Option (List Nat)
  | [] => matchCI pat []
  | c :: cs =>
    match matchCI pat (c :: cs) with
    | some r => some r
    | none => findCI pat cs

theorem findCI_length {pat l r : List Nat} (h : findCI pat l = some r) :
    r.length + pat.length ≤ l.length := by
  induction l with
  | nil => exact le_of_eq (matchCI_length h)
  | cons c cs ih =>
    simp only [findCI] at h
    split at h
    · rename_i r' hm
      cases h
      exact le_of_eq (matchCI_length hm)
    · have := ih h
      simp only [List.length_cons]
      omega

/-- Try to match `<NAME[^>]*>.*?</NAME>` at the head of `l` (case-insensitive,
DOTALL): `o0 :: oRest` is the literal `<NAME`, `closePat` the literal
`</NAME>`.  Returns the rest of the input after the closing tag. -/
def tryElem (o0 : Nat) (oRest closePat l : List Nat) : Option (List Nat) :=
  match matchCI (o0 :: oRest) l with
  | none => none
  | some r =>
    match r.dropWhile (fun c => c != 62) with
    | 62 :: r2 => findCI closePat r2
    | _ => none

theorem tryElem_length {o0 : Nat} {oRest closePat l r : List Nat}
    (h : tryElem o0 oRest closePat l = some r) : r.length < l.length := by
  unfold tryElem at h
  split at h
  · exact absurd h (by simp)
  · rename_i r1 hm
    have h1 : r1.length + (oRest.length + 1) = l.length := by
      simpa using matchCI_length hm
    have hdw : (r1.dropWhile (fun c => c != 62)).length ≤ r1.length :=
      (List.dropWhile_sublist _).length_le
    split at h
    · rename_i r2 heq
      have h2 : r2.length + 1 ≤ r1.length := by
        rw [heq] at hdw
        simpa using hdw
      have h3 := findCI_length h
      omega
    · exact absurd h (by simp)

/-- `re.sub(r'<NAME[^>]*>.*?</NAME>', '', html, flags=re.DOTALL|re.IGNORECASE)`
(process.py lines 111-112): delete whole script/style elements, including
tags whose name merely begins with NAME, spanning newlines, lazily up to the
first closing tag; an opening tag with no closing tag is left in place. -/
def removeElems (o0 : Nat) (oRest closePat : List Nat) : List Nat → List Nat
  | [] => []
  | c :: rest =>
    match h : tryElem o0 oRest closePat (c :: rest) with
    | some r => removeElems o0 oRest closePat r
    | none => c :: removeElems o0 oRest closePat rest
termination_by l => l.length
decreasing_by
  · exact tryElem_length h
  · simp only [List.length_cons]; omega

/-- A character allowed inside an unquoted/quoted attribute value: the regex
class `[^'" >]`. -/
def isAttrValChar (n : Nat) : Bool := !(n == 39 || n == 34 || n == 32 || n == 62)

/-- Try to match `EQPAT['"]?([^'" >]+)` at the head of `l` (`EQPAT` is
`href=` or `src=`, split as `e0 :: ePs` for termination).  Returns the
captured value and the rest of the input after the match. -/
def matchAttr (e0 : Nat) (ePs l : List Nat) : Option (List Nat × List Nat) :=
  match matchCI (e0 :: ePs) l with
  | none => none
  | some [] => none
  | some (q :: r2) =>
    if q == 39 || q == 34 then
      if (r2.takeWhile isAttrValChar).isEmpty then none
      else some (r2.takeWhile isAttrValChar, r2.dropWhile isAttrValChar)
    else
      if ((q :: r2).takeWhile isAttrValChar).isEmpty then none
      else some ((q :: r2).takeWhile isAttrValChar, (q :: r2).dropWhile isAttrValChar)

theorem matchAttr_length {e0 : Nat} {ePs l v r : List Nat}
    (h : matchAttr e0 ePs l = some (v, r)) : r.length < l.length := by
  unfold matchAttr at h
  split at h
  · exact absurd h (by simp)
  · exact absurd h (by simp)
  · rename_i q r2 hm
    have h1 : r2.length + 1 + (ePs.length + 1) = l.length := by
      simpa using matchCI_length hm
    have hd2 : (r2.dropWhile isAttrValChar).length ≤ r2.length :=
      (List.dropWhile_sublist _).length_le
    split at h
    · split at h
      · exact absurd h (by simp)
      · simp only [Option.some.injEq, Prod.mk.injEq] at h
        obtain ⟨hv2, hr⟩ := h
        subst hr
        omega
    · split at h
      · exact absurd h (by simp)
      · rename_i hq hv
        simp only [Option.some.injEq, Prod.mk.injEq] at h
        obtain ⟨hv2, hr⟩ := h
        subst hr
        have hsum : ((q :: r2).takeWhile isAttrValChar).length +
            ((q :: r2).dropWhile isAttrValChar).length = (q :: r2).length := by
          rw [← List.length_append, List.takeWhile_append_dropWhile]
        have hpos : 0 < ((q :: r2).takeWhile isAttrValChar).length := by
          rw [List.length_pos, Ne, ← List.isEmpty_iff]
          simpa using hv
        simp only [List.length_cons] at hsum
        omega

/-- `re.findall(r'EQPAT[\'"]?([^\'" >]+)', html, flags=re.IGNORECASE)`
(process.py lines 115 and 118): all attribute values, in scan order. -/
def findAttrs (e0 : Nat) (ePs : List Nat) : List Nat → List (List Nat)
  | [] => []
  | c :: rest =>
    match h : matchAttr e0 ePs (c :: rest) with
    | some (v, r) => v :: findAttrs e0 ePs r
    | none => findAttrs e0 ePs rest
termination_by l => l.length
decreasing_by
  · exact matchAttr_length h
  · simp only [List.length_cons]; omega

/-- One pass of `re.sub(pat, '\n', html, flags=re.IGNORECASE)` for a literal
tag pattern `p0 :: ps` (the `</p>`, `</div>`, `</li>`, `</tr>` substitutions of
process.py lines 121-125). -/
def replaceLit (p0 : Nat) (ps : List Nat) : List Nat → List Nat
  | [] => []
  | c :: rest =>
    match h : matchCI (p0 :: ps) (c :: rest) with
    | some r => 10 :: replaceLit p0 ps r
    | none => c :: replaceLit p0 ps rest
termination_by l => l.length
decreasing_by
  · have := matchCI_length h
    simp only [List.length_cons] at this ⊢
    omega
  · simp only [List.length_cons]; omega

/-- Matcher for `<br\s*/?>` (case-insensitive; regex `\s` modelled on the
ASCII/Latin-1 fragment). -/
def matchBr (l : List Nat) : Option (List Nat) :=
  match matchCI (strCodes "<br") l with
  | none => none
  | some r =>
    match r.dropWhile isPyWs with
    | 47 :: 62 :: r2 => some r2
    | 62 :: r2 => some r2
    | _ => none

theorem matchBr_length {l r : List Nat} (h : matchBr l = some r) :
    r.length < l.length := by
  unfold matchBr at h
  split at h
  · exact absurd h (by simp)
  · rename_i r1 hm
    have h1 : r1.length + 3 = l.length := by
      simpa [strCodes] using matchCI_length hm
    have hdw : (r1.dropWhile isPyWs).length ≤ r1.length :=
      (List.dropWhile_sublist _).length_le
    split at h
    · rename_i r2 heq
      injection h with h
      subst h
      rw [heq] at hdw
      simp only [List.length_cons] at hdw
      omega
    · rename_i x r2 heq
      injection h with h
      subst h
      rw [heq] at hdw
      simp only [List.length_cons] at hdw
      omega
    · exact absurd h (by simp)

/-- `re.sub(r'<br\s*/?>', '\n', html, flags=re.IGNORECASE)`. -/
def replaceBr : List Nat → List Nat
  | [] => []
  | c :: rest =>
    match h : matchBr (c :: rest) with
    | some r => 10 :: replaceBr r
    | none => c :: replaceBr rest
termination_by l => l.length
decreasing_by
  · exact matchBr_length h
  · simp only [List.length_cons]; omega

/-- Matcher for `</h[1-6]>` (case-insensitive). -/
def matchH (l : List Nat) : Option (List Nat) :=
  match matchCI (strCodes "</h") l with
  | none => none
  | some r =>
    match r with
    | d :: 62 :: r2 => if 49 ≤ d && d ≤ 54 then some r2 else none
    | _ => none

theorem matchH_length {l r : List Nat} (h : matchH l = some r) :
    r.length < l.length := by
  unfold matchH at h
  split at h
  · exact absurd h (by simp)
  · rename_i r1 hm
    have h1 : r1.length + 3 = l.length := by
      simpa [strCodes] using matchCI_length hm
    split at h
    · rename_i d r2
      split at h
      · cases h
        simp_all
        omega
      · exact absurd h (by simp)
    · exact absurd h (by simp)

/-- `re.sub(r'</h[1-6]>', '\n', html, flags=re.IGNORECASE)`. -/
def replaceH : List Nat → List Nat
  | [] => []
  | c :: rest =>
    match h : matchH (c :: rest) with
    | some r => 10 :: replaceH r
    | none => c :: replaceH rest
termination_by l => l.length
decreasing_by
  · exact matchH_length h
  · simp only [List.length_cons]; omega

/-- Rest of the input after the first `>`, if any. -/
def afterGt : List Nat → Option (List Nat)
  | [] => none
  | c :: r => if c == 62 then some r else afterGt r

theorem afterGt_length {l r : List Nat} (h : afterGt l = some r) :
    r.length < l.length := by
  induction l with
  | nil => simp [afterGt] at h
  | cons c cs ih =>
    simp only [afterGt] at h
    split at h
    · cases h
      simp
    · have := ih h
      simp only [List.length_cons]
      omega

/-- Try to match `[^>]+>` right after a `<`: at least one non-`>` character
followed by the first `>`.  Returns the rest after that `>`. -/
def tagSkip : List Nat → Option (List Nat)
  | [] => none
  | d :: r => if d == 62 then none else afterGt r

theorem tagSkip_length {l r : List Nat} (h : tagSkip l = some r) :
    r.length < l.length := by
  cases l with
  | nil => simp [tagSkip] at h
  | cons d r0 =>
    simp only [tagSkip] at h
    split at h
    · exact absurd h (by simp)
    · have := afterGt_length h
      simp only [List.length_cons]
      omega

/-- `re.sub(r'<[^>]+>', ' ', html)` (process.py line 128): replace each
complete tag by a single space; a `<` with no later `>` (or immediately
followed by `>`) is left in place and scanning resumes one character later. -/
def removeTags : List Nat → List Nat
  | [] => []
  | c :: rest =>
    if c == 60 then
      match h : tagSkip rest with
      | some r => 32 :: removeTags r
      | none => c :: removeTags rest
    else c :: removeTags rest
termination_by l => l.length
decreasing_by
  · have := tagSkip_length h
    simp only [List.length_cons]
    omega
  · simp only [List.length_cons]; omega
  · simp only [List.length_cons]; omega

/-- `re.sub(r'\r', '\n', text)` (process.py line 131). -/
def crToLf (l : List Nat) : List Nat := l.map (fun c => if c == 13 then 10 else c)

/-- `re.sub(r'\n{2,}', '\n\n', text)` (process.py line 132): collapse each run
of 2 or more newlines to exactly two newlines. -/
def collapseNl2 : List Nat → List Nat
  | [] => []
  | c :: rest =>
    if c = 10 ∧ rest.head? = some 10 then
      10 :: 10 :: collapseNl2 (rest.tail.dropWhile (· == 10))
    else c :: collapseNl2 rest
termination_by l => l.length
decreasing_by
  all_goals simp only [List.length_cons]
  all_goals try omega
  all_goals
    exact Nat.lt_succ_of_le (le_trans ((List.dropWhile_sublist _).length_le)
      (by rw [List.length_tail]; omega))

/-- `re.sub(r'[ \t\f\v]+', ' ', text)` (process.py line 133): collapse runs of
horizontal whitespace to a single space. -/
def collapseHWs : List Nat → List Nat
  | [] => []
  | c :: rest =>
    if isHWs c then 32 :: collapseHWs (rest.dropWhile isHWs)
    else c :: collapseHWs rest
termination_by l => l.length
decreasing_by
  all_goals simp only [List.length_cons]
  all_goals try omega
  all_goals exact Nat.lt_succ_of_le ((List.dropWhile_sublist _).length_le)

/-- `text.split('\n')`. -/
def splitNl : List Nat → List (List Nat)
  | [] => [[]]
  | c :: rest =>
    if c = 10 then [] :: splitNl rest
    else
      match splitNl rest with
      | [] => [[c]]
      | s :: ss => (c :: s) :: ss

/-- `'\n'.join(lines)`. -/
def joinNl : List (List Nat) → List Nat
  | [] => []
  | [x] => x
  | x :: xs => x ++ 10 :: joinNl xs

/-- `'\n'.join(line.strip() for line in text.split('\n'))` (process.py
line 135). -/
def stripLines (l : List Nat) : List Nat := joinNl ((splitNl l).map stripList)

/-- `re.sub(r'\n{3,}', '\n\n', text)` (process.py line 136): collapse each run
of 3 or more newlines to exactly two. -/
def collapseNl3 : List Nat → List Nat
  | [] => []
  | c :: rest =>
    if c = 10 ∧ rest.head? = some 10 ∧ rest.tail.head? = some 10 then
      10 :: 10 :: collapseNl3 (rest.tail.tail.dropWhile (· == 10))
    else c :: collapseNl3 rest
termination_by l => l.length
decreasing_by
  all_goals simp only [List.length_cons]
  all_goals try omega
  all_goals
    refine Nat.lt_succ_of_le (le_trans ((List.dropWhile_sublist _).length_le) ?_)
    rw [List.length_tail, List.length_tail]
    omega

/-- `strip_html` (process.py lines 108-138): returns (text, links, images). -/
def stripHtml (html : List Nat) : List Nat × List (List Nat) × List (List Nat) :=
  let h1 := removeElems 60 (strCodes "script") (strCodes "</script>") html
  let h2 := removeElems 60 (strCodes "style") (strCodes "</style>") h1
  let links := findAttrs 104 (strCodes "ref=") h2
  let images := findAttrs 115 (strCodes "rc=") h2
  let h3 := replaceLit 60 (strCodes "/p>") h2
  let h4 := replaceBr h3
  let h5 := replaceLit 60 (strCodes "/div>") h4
  let h6 := replaceLit 60 (strCodes "/li>") h5
  let h7 := replaceH h6
  let h8 := replaceLit 60 (strCodes "/tr>") h7
  let t0 := removeTags h8
  let t1 := crToLf t0
  let t2 := collapseNl2 t1
  let t3 := collapseHWs t2
  let t4 := stripLines t3
  let t5 := stripList (collapseNl3 t4)
  (t5, links, images)

/-- The extracted-text component of `strip_html`. -/
def stripHtmlText (html : List Nat) : List Nat := (stripHtml html).1

/-- Floor of a rational as an integer. -/
def ratFloorZ (q : ℚ) : ℤ := Int.fdiv q.num (q.den : ℤ)

/-- Round to the nearest integer, ties to even (banker's rounding, as Python's
built-in `round`). -/
def roundHalfEvenZ (q : ℚ) : ℤ :=
  let f := ratFloorZ q
  if q - (f : ℚ) < 1 / 2 then f
  else if (1 : ℚ) / 2 < q - (f : ℚ) then f + 1
  else if f % 2 = 0 then f else f + 1

/-- Python `round(x, k)` on the exact rational value (binary floating-point
representation artifacts are out of scope of the embedding). -/
def pyRound (k : Nat) (q : ℚ) : ℚ :=
  ((roundHalfEvenZ (q * (10 ^ k : ℚ)) : ℚ)) / (10 ^ k : ℚ)

/-- The `statistics` object of a ProcessedDocument. -/
structure Stats where
  word_count : Nat
  sentence_count : Nat
  paragraph_count : Nat
  avg_word_length : ℚ
deriving DecidableEq

/-- The per-document statistics computed in `process_html_file`
(process.py lines 167-173 and 178-183). -/
def computeStats (text : List Nat) : Stats :=
  let words := tokenize text
  { word_count := words.length
    sentence_count := (sentencesIn text).length
    paragraph_count := countParagraphs text
    avg_word_length :=
      if words.length = 0 then 0
      else pyRound 3 (((words.map List.length).sum : ℚ) / (words.length : ℚ)) }

/-- A ProcessedDocument record as written by the Processor / parsed by the
Aggregator (process.py lines 175-187). -/
structure PDoc where
  source_file : List Nat
  text : List Nat
  statistics : Stats
  links : List (List Nat)
  images : List (List Nat)
  processed_at : List Nat
deriving DecidableEq

/-- The outcome of reading one raw file from the shared store (the only
effectful, fallible step inside the `try` of `process_html_file`). -/
inductive ReadResult where
  | ok (bytes : List Nat)
  | ioError (msg : List Nat)
deriving DecidableEq

/-- `process_html_file` (process.py lines 158-190): an I/O failure while
reading is caught and returned as `(None, error)`; the pure pipeline
(best-effort decode, strip_html, statistics) always succeeds. -/
def process_html_file (fname : List Nat) (r : ReadResult) (ts : List Nat) :
    Option PDoc × Option (List Nat) :=
  match r with
  | .ioError m => (none, some m)
  | .ok bytes =>
    let html := decodeUtf8Ignore bytes
    let res := stripHtml html
    (some { source_file := fname, text := res.1,
            statistics := computeStats res.1,
            links := res.2.1, images := res.2.2, processed_at := ts }, none)

/-- Does `base` match `re.match(r'(page_\d+)\.html$', base, re.IGNORECASE)`? -/
def isPageHtml (base : List Nat) : Bool :=
  match matchCI (strCodes "page_") base with
  | none => false
  | some r =>
    !(r.takeWhile isDigitN).isEmpty &&
      (matchCI (strCodes ".html") (r.dropWhile isDigitN) == some [])

/-- Decimal digit codes of `n`. -/
def natDigits (n : Nat) : List Nat :=
  if n < 10 then [48 + n] else natDigits (n / 10) ++ [48 + n % 10]
termination_by n
decreasing_by exact Nat.div_lt_self (by omega) (by omega)

/-- The output stem for the file at 1-based index `idx` (process.py
lines 219-221): the `page_N` group when the name matches, else a synthetic
`page_<index>`. -/
def stemOf (idx : Nat) (base : List Nat) : List Nat :=
  if isPageHtml base then base.take (base.length - 5)
  else strCodes "page_" ++ natDigits idx

/-- Status string of a manifest entry (`"success"` / `"failed"`). -/
inductive PStatus where
  | success
  | failed
deriving DecidableEq

/-- One element of the manifest's `results` list. -/
structure MEntry where
  source : List Nat
  output : Option (List Nat)
  status : PStatus
  error : Option (List Nat)
deriving DecidableEq

/-- The ProcessingManifest written to `process_complete.json`
(process.py lines 231-237). -/
structure Manifest where
  timestamp : List Nat
  files_found : Nat
  successful : Nat
  failed : Nat
  results : List MEntry
deriving DecidableEq

/-- The manifest entry the processor loop records for file `f` at 1-based
index `idx` (process.py lines 216-228). -/
def entryOf (idx : Nat) (ts : List Nat) (f : (List Nat) × ReadResult) : MEntry :=
  match process_html_file f.1 f.2 ts with
  | (some _, _) =>
    { source := f.1, output := some (stemOf idx f.1 ++ strCodes ".json"),
      status := .success, error := none }
  | (none, err) =>
    { source := f.1, output := none, status := .failed, error := err }

/-- The processor loop (process.py lines 210-229): the `results` list in input
order together with the `success` and `failed` counters. -/
def procLoop (ts : List Nat) : Nat → List ((List Nat) × ReadResult) →
    List MEntry × Nat × Nat
  | _, [] => ([], 0, 0)
  | idx, f :: rest =>
    let e := entryOf idx ts f
    let r := procLoop ts (idx + 1) rest
    (e :: r.1, (if e.status = .success then r.2.1 + 1 else r.2.1),
      (if e.status = .failed then r.2.2 + 1 else r.2.2))

/-- `main` of process.py (lines 197-239): the manifest written for the sorted
raw-file listing `files` (filename, read outcome). -/
def processorMain (files : List ((List Nat) × ReadResult)) (ts : List Nat) :
    Manifest :=
  { timestamp := ts, files_found := files.length,
    successful := (procLoop ts 1 files).2.1,
    failed := (procLoop ts 1 files).2.2,
    results := (procLoop ts 1 files).1 }

/-- `collections.Counter` as an insertion-ordered association list (Python
dicts preserve insertion order; a repeated key is incremented in place). -/
def cAdd (m : List (List Nat × Nat)) (k : List Nat) : List (List Nat × Nat) :=
  match m with
  | [] => [(k, 1)]
  | (k', c) :: rest => if k' = k then (k', c + 1) :: rest else (k', c) :: cAdd rest k

/-- `Counter.update(ks)`. -/
def cAddAll (m : List (List Nat × Nat)) (ks : List (List Nat)) :
    List (List Nat × Nat) :=
  ks.foldl cAdd m

/-- Stable insertion for the descending-by-count sort: the new element goes in
front of the first entry whose count is not larger, so earlier-inserted equal
counts stay in front. -/
def insDesc (x : List Nat × Nat) : List (List Nat × Nat) → List (List Nat × Nat)
  | [] => [x]
  | y :: ys => if x.2 < y.2 then y :: insDesc x ys else x :: y :: ys

/-- Stable sort of counter items by count descending; ties keep insertion
order. -/
def sortCountDesc (m : List (List Nat × Nat)) : List (List Nat × Nat) :=
  m.foldr insDesc []

/-- `Counter.most_common(n)`: per the library documentation equivalent to
`sorted(items, key=count, reverse=True)[:n]`, a stable descending sort —
ties are returned in insertion (first-occurrence) order. -/
def mostCommon (n : Nat) (m : List (List Nat × Nat)) : List (List Nat × Nat) :=
  (sortCountDesc m).take n

/-- Strict lexicographic order on code-point lists. -/
def lexLt : List Nat → List Nat → Bool
  | [], [] => false
  | [], _ :: _ => true
  | _ :: _, [] => false
  | a :: as, b :: bs => if a < b then true else if b < a then false else lexLt as bs

/-- Follows the spec's words: insertion step for "count descending, ties
broken by lexicographic ascending order on the term string". -/
def insSpecTop (x : List Nat × Nat) :
    List (List Nat × Nat) → List (List Nat × Nat)
  | [] => [x]
  | y :: ys =>
    if x.2 < y.2 ∨ (x.2 = y.2 ∧ lexLt y.1 x.1) then y :: insSpecTop x ys
    else x :: y :: ys

/-- Follows the spec's words: the top-`n` table "sorted by count descending;
ties broken by lexicographic ascending order on the term / n-gram string". -/
def specMostCommon (n : Nat) (m : List (List Nat × Nat)) :
    List (List Nat × Nat) :=
  (m.foldr insSpecTop []).take n

/-- `jaccard_similarity` (analyze.py lines 115-121): Jaccard similarity of the
distinct-word sets of two word lists; 0.0 when the union is empty. -/
def jaccard_similarity (doc1Words doc2Words : List (List Nat)) : ℚ :=
  let set1 := doc1Words.toFinset
  let set2 := doc2Words.toFinset
  if set1 ∪ set2 = ∅ then 0
  else ((set1 ∩ set2).card : ℚ) / ((set1 ∪ set2).card : ℚ)

/-- `ngrams(tokens, n)` (analyze.py lines 130-134): all length-`n` sliding
windows; empty for `n = 0` (the `n <= 0` guard) or when fewer than `n` tokens
remain. -/
def ngramsPy (n : Nat) : List (List Nat) → List (List (List Nat))
  | [] => []
  | t :: rest =>
    if n ≤ (t :: rest).length ∧ n ≠ 0 then ((t :: rest).take n) :: ngramsPy n rest
    else []

/-- `' '.join(gram)`. -/
def joinSpace : List (List Nat) → List Nat
  | [] => []
  | [w] => w
  | w :: rest => w ++ 32 :: joinSpace rest

/-- The running accumulators of the aggregation loop (analyze.py
lines 166-174). -/
structure AggSt where
  total_words : Nat
  vocab : List (List Nat × Nat)
  bigrams : List (List Nat × Nat)
  trigrams : List (List Nat × Nat)
  wordLists : List (List Nat × List (List Nat))
  all_sentences : Nat
  total_sentence_len_words : Nat
  total_word_len : Nat
deriving DecidableEq

/-- Initial accumulator values. -/
def initAgg : AggSt := ⟨0, [], [], [], [], 0, 0, 0⟩

/-- One iteration of the aggregation loop (analyze.py lines 177-193) on the
record `(fname, d)`; of the record only `d.text` is read
(`d.get("text", "")`). -/
def aggStep (st : AggSt) (p : (List Nat) × PDoc) : AggSt :=
  let words := tokenizeLower p.2.text
  let sents := sentencesIn p.2.text
  { total_words := st.total_words + words.length
    vocab := cAddAll st.vocab words
    bigrams := cAddAll st.bigrams ((ngramsPy 2 words).map joinSpace)
    trigrams := cAddAll st.trigrams ((ngramsPy 3 words).map joinSpace)
    wordLists := st.wordLists ++ [(p.1, words)]
    all_sentences := st.all_sentences + sents.length
    total_sentence_len_words := st.total_sentence_len_words +
      (sents.map (fun s => (tokenizeLower s).length)).sum
    total_word_len := st.total_word_len + (words.map List.length).sum }

/-- The whole aggregation loop over the loaded records. -/
def aggregate (docs : List ((List Nat) × PDoc)) : AggSt :=
  docs.foldl aggStep initAgg

/-- `doc_word_lists.get(f, [])` where the dict was filled by in-loop
assignment: the last assignment to a filename wins. -/
def lookupLast (wl : List (List Nat × List (List Nat))) (k : List Nat) :
    List (List Nat) :=
  (((wl.filter (fun q => q.1 = k)).getLast?).map Prod.snd).getD []

/-- `itertools.combinations(l, 2)`, in iteration order. -/
def pairsOf {α : Type} : List α → List (α × α)
  | [] => []
  | x :: xs => (xs.map (fun y => (x, y))) ++ pairsOf xs

/-- One element of `top_100_words`. -/
structure WordEntry where
  word : List Nat
  count : Nat
  frequency : ℚ
deriving DecidableEq

/-- One element of `top_bigrams` / `top_trigrams`. -/
structure GramEntry where
  gram : List Nat
  count : Nat
deriving DecidableEq

/-- One element of `document_similarity`. -/
structure SimEntry where
  doc1 : List Nat
  doc2 : List Nat
  similarity : ℚ
deriving DecidableEq

/-- The `readability` object of the report. -/
structure Readability where
  avg_sentence_length : ℚ
  avg_word_length : ℚ
  complexity_score : ℚ
deriving DecidableEq

/-- The CorpusReport written to `final_report.json` (analyze.py
lines 216-230). -/
structure Report where
  processing_timestamp : List Nat
  documents_processed : Nat
  total_words : Nat
  unique_words : Nat
  top_100_words : List WordEntry
  document_similarity : List SimEntry
  top_bigrams : List GramEntry
  top_trigrams : List GramEntry
  readability : Readability
deriving DecidableEq

/-- `main` of analyze.py (lines 145-234): the report computed from the
successfully loaded document records `docs` (filename, parsed record), with
`ts` the wall-clock timestamp taken at report-assembly time. -/
def reportOf (docs : List ((List Nat) × PDoc)) (ts : List Nat) : Report :=
  let st := aggregate docs
  let avgS : ℚ := if st.all_sentences = 0 then 0
    else (st.total_sentence_len_words : ℚ) / (st.all_sentences : ℚ)
  let avgW : ℚ := if st.total_words = 0 then 0
    else (st.total_word_len : ℚ) / (st.total_words : ℚ)
  let cplx : ℚ := if avgS ≠ 0 ∧ avgW ≠ 0 then avgS * avgW else 0
  { processing_timestamp := ts
    documents_processed := docs.length
    total_words := st.total_words
    unique_words := st.vocab.length
    top_100_words := (mostCommon 100 st.vocab).map (fun wc =>
      { word := wc.1, count := wc.2,
        frequency := if st.total_words = 0 then 0
          else (wc.2 : ℚ) / (st.total_words : ℚ) })
    document_similarity := (pairsOf docs).map (fun q =>
      { doc1 := q.1.1, doc2 := q.2.1,
        similarity := pyRound 6 (jaccard_similarity
          (lookupLast st.wordLists q.1.1) (lookupLast st.wordLists q.2.1)) })
    top_bigrams := (mostCommon 50 st.bigrams).map (fun wc =>
      { gram := wc.1, count := wc.2 })
    top_trigrams := (mostCommon 50 st.trigrams).map (fun wc =>
      { gram := wc.1, count := wc.2 })
    readability := { avg_sentence_length := pyRound 3 avgS
                     avg_word_length := pyRound 3 avgW
                     complexity_score := pyRound 3 cplx } }

/-- All report fields except the timestamp. -/
def Report.body (r : Report) :
    Nat × Nat × Nat × List WordEntry × List SimEntry × List GramEntry ×
      List GramEntry × Readability :=
  (r.documents_processed, r.total_words, r.unique_words, r.top_100_words,
   r.document_similarity, r.top_bigrams, r.top_trigrams, r.readability)

/-- A document record with the statistics the Processor would store for its
text and no links or images; used for concrete instances. -/
def docWithText (t : List Nat) : PDoc :=
  { source_file := [], text := t, statistics := computeStats t,
    links := [], images := [], processed_at := [] }

/-- Is there a complete-tag start right after a `<`: a non-`>` character with
a later `>`? -/
def tagStart : List Nat → Bool
  | [] => false
  | d :: r => (d != 62) && r.contains 62

/-- Does the text contain a substring matching `<[^>]+>`? -/
def hasTag : List Nat → Bool
  | [] => false
  | c :: rest => ((c == 60) && tagStart rest) || hasTag rest

/-- Does the text contain three consecutive newlines? -/
def hasTriple : List Nat → Bool
  | c1 :: c2 :: c3 :: rest =>
    ((c1 == 10) && (c2 == 10) && (c3 == 10)) || hasTriple (c2 :: c3 :: rest)
  | _ => false

/-- `WsDel l' l`: `l'` is obtained from `l` by deleting or replacing
characters other than `<` (60) and `>` (62) — the combined effect of the
whitespace-normalization passes of `strip_html` after tag removal. -/
inductive WsDel : List Nat → List Nat → Prop
  | nil : WsDel [] []
  | keep (c : Nat) {l' l : List Nat} : WsDel l' l → WsDel (c :: l') (c :: l)
  | del {c : Nat} {l' l : List Nat} : c ≠ 60 → c ≠ 62 → WsDel l' l →
      WsDel l' (c :: l)
  | rep {c c' : Nat} {l' l : List Nat} : c ≠ 60 → c ≠ 62 → c' ≠ 60 → c' ≠ 62 →
      WsDel l' l → WsDel (c' :: l') (c :: l)

end Pipeline

namespace Pipeline

/-! ## Helper lemmas -/

theorem entryOf_source (idx : Nat) (ts : List Nat) (f : (List Nat) × ReadResult) :
    (entryOf idx ts f).source = f.1 := by
  unfold entryOf
  split <;> rfl

theorem entryOf_status (idx : Nat) (ts : List Nat) (f : (List Nat) × ReadResult) :
    (entryOf idx ts f).status = PStatus.success ∨
      (entryOf idx ts f).status = PStatus.failed := by
  unfold entryOf
  split <;> simp

theorem procLoop_spec (ts : List Nat) (files : List ((List Nat) × ReadResult)) :
    ∀ idx,
      (procLoop ts idx files).2.1 + (procLoop ts idx files).2.2 = files.length ∧
      (procLoop ts idx files).1.length = files.length ∧
      (procLoop ts idx files).1.map MEntry.source = files.map Prod.fst ∧
      ∀ e ∈ (procLoop ts idx files).1,
        e.status = PStatus.success ∨ e.status = PStatus.failed := by
  induction files with
  | nil => intro idx; simp [procLoop]
  | cons f rest ih =>
    intro idx
    obtain ⟨ih1, ih2, ih3, ih4⟩ := ih (idx + 1)
    rcases entryOf_status idx ts f with hs | hs <;>
      refine ⟨?_, ?_, ?_, ?_⟩ <;>
        simp [procLoop, hs, entryOf_source, ih1, ih2, ih3]
    · omega
    · intro e he
      exact ih4 e he
    · omega
    · intro e he
      exact ih4 e he

/-! ## Claim theorems -/

/-- C4: the Jaccard similarity function satisfies Jaccard(A,A) = 1.0 for every
non-empty token list A, Jaccard(A,B) = Jaccard(B,A), Jaccard of two empty
inputs is 0.0, and on the token lists with distinct sets {a,b,c} and {b,c,d}
it returns 0.5. -/
theorem jaccard_properties :
    (∀ A : List (List Nat), A ≠ [] → jaccard_similarity A A = 1) ∧
    (∀ A B : List (List Nat), jaccard_similarity A B = jaccard_similarity B A) ∧
    jaccard_similarity [] [] = 0 ∧
    jaccard_similarity [strCodes "a", strCodes "b", strCodes "c"]
      [strCodes "b", strCodes "c", strCodes "d"] = 1 / 2 := by
  refine ⟨?_, ?_, ?_, ?_⟩
  · intro A hA
    have hne : A.toFinset ≠ ∅ := by
      simp only [Ne, List.toFinset_eq_empty_iff]
      exact hA
    simp only [jaccard_similarity, Finset.union_self, Finset.inter_self,
      if_neg hne]
    rw [div_self]
    simpa [Finset.card_eq_zero] using hne
  · intro A B
    simp only [jaccard_similarity]
    rw [Finset.union_comm, Finset.inter_comm]
  · rfl
  · have hu : ([strCodes "a", strCodes "b", strCodes "c"].toFinset ∪
        [strCodes "b", strCodes "c", strCodes "d"].toFinset).card = 4 := by decide
    have hi : ([strCodes "a", strCodes "b", strCodes "c"].toFinset ∩
        [strCodes "b", strCodes "c", strCodes "d"].toFinset).card = 2 := by decide
    have hne : ¬([strCodes "a", strCodes "b", strCodes "c"].toFinset ∪
        [strCodes "b", strCodes "c", strCodes "d"].toFinset = ∅) := by decide
    simp only [jaccard_similarity, if_neg hne, hu, hi]
    norm_num

/-- Witness for C4: the first conjunct applied at the concrete non-empty token
list [["a"]]. -/
theorem jaccard_properties_witness :
    jaccard_similarity [strCodes "a"] [strCodes "a"] = 1 :=
  jaccard_properties.1 [strCodes "a"] (by decide)

/-- C5: the Aggregator is a deterministic function of its input records —
two runs over the same loaded records produce reports identical in every
field except `processing_timestamp`. -/
theorem aggregator_deterministic (docs : List ((List Nat) × PDoc))
    (ts1 ts2 : List Nat) :
    (reportOf docs ts1).body = (reportOf docs ts2).body := rfl

/-- C2: in every manifest the Processor writes, successful + failed equals
files_found, the results list has exactly files_found entries, and the entries
correspond 1:1 (in order) to the input files, each carrying status success or
failed. -/
theorem manifest_invariant (files : List ((List Nat) × ReadResult))
    (ts : List Nat) :
    (processorMain files ts).successful + (processorMain files ts).failed =
        (processorMain files ts).files_found ∧
      (processorMain files ts).results.length =
        (processorMain files ts).files_found ∧
      (processorMain files ts).results.map MEntry.source = files.map Prod.fst ∧
      ∀ e ∈ (processorMain files ts).results,
        e.status = PStatus.success ∨ e.status = PStatus.failed := by
  obtain ⟨h1, h2, h3, h4⟩ := procLoop_spec ts files 1
  exact ⟨h1, h2, h3, h4⟩

theorem procLoop_results (ts : List Nat) (files : List ((List Nat) × ReadResult)) :
    ∀ idx, (procLoop ts idx files).1 =
      (files.enumFrom idx).map (fun p => entryOf p.1 ts p.2) := by
  induction files with
  | nil => intro idx; simp [procLoop]
  | cons f rest ih =>
    intro idx
    simp [procLoop, List.enumFrom, ih (idx + 1)]

/-- C8 counterexample: the spec says invalid byte sequences are *replaced*
during best-effort decoding, but the source decodes with `errors='ignore'`,
which *drops* them: at the byte input [0x41, 0xFF, 0x42] the code's decoding
differs from the claimed replacement decoding. -/
theorem decode_ignore_ne_replace :
    decodeUtf8Ignore [65, 255, 66] = [65, 66] ∧
      specDecodeReplace [65, 255, 66] = [65, 65533, 66] ∧
      decodeUtf8Ignore [65, 255, 66] ≠ specDecodeReplace [65, 255, 66] := by
  have h1 : decodeUtf8Ignore [65, 255, 66] = [65, 66] := by
    simp [decodeUtf8Ignore, isCont]
  have h2 : specDecodeReplace [65, 255, 66] = [65, 65533, 66] := by
    simp [specDecodeReplace, isCont]
  refine ⟨h1, h2, ?_⟩
  rw [h1, h2]
  decide

/-- C8 (amended): for every raw input file, decoding its bytes never raises —
invalid byte sequences are dropped (ignored) during best-effort decoding, so
the pure pipeline succeeds on arbitrary bytes; a failed read is caught and
recorded as a failed manifest entry carrying the error; and the manifest's
results list has one independently computed entry per input file, so
processing of subsequent files always continues. -/
theorem processor_error_containment :
    (∀ fname bytes ts,
        (process_html_file fname (ReadResult.ok bytes) ts).2 = none ∧
        (process_html_file fname (ReadResult.ok bytes) ts).1.isSome = true) ∧
    (∀ fname m ts,
        process_html_file fname (ReadResult.ioError m) ts = (none, some m)) ∧
    (∀ idx ts fname m, entryOf idx ts (fname, ReadResult.ioError m) =
        { source := fname, output := none, status := PStatus.failed,
          error := some m }) ∧
    (∀ files ts, (processorMain files ts).results =
        (files.enumFrom 1).map (fun p => entryOf p.1 ts p.2)) ∧
    decodeUtf8Ignore [65, 255, 66] = [65, 66] := by
  refine ⟨fun fname bytes ts => ⟨rfl, rfl⟩, fun fname m ts => rfl,
    fun idx ts fname m => rfl, fun files ts => procLoop_results ts files 1,
    by simp [decodeUtf8Ignore, isCont]⟩

theorem isWordChar_asciiLower (n : Nat) : isWordChar (asciiLower n) = isWordChar n := by
  rw [Bool.eq_iff_iff]
  simp only [isWordChar, asciiLower, Bool.or_eq_true, Bool.and_eq_true,
    decide_eq_true_eq, beq_iff_eq]
  split <;> omega

theorem tokenize_map_lower (l : List Nat) :
    tokenize (l.map asciiLower) = (tokenize l).map (List.map asciiLower) := by
  have hfun : (isWordChar ∘ asciiLower) = isWordChar := funext isWordChar_asciiLower
  induction l using tokenize.induct with
  | case1 => simp [tokenize]
  | case2 c rest hc ih =>
    simp only [List.map_cons, tokenize, isWordChar_asciiLower, hc, if_pos,
      List.takeWhile_map, List.dropWhile_map, hfun, ih, List.map_map]
  | case3 c rest hc ih =>
    simp only [List.map_cons, tokenize, isWordChar_asciiLower, hc, if_neg, ih]
    simp [hc]

theorem pyLowerChar_ascii {c : Nat} (hc : c < 128) :
    pyLowerChar c = [asciiLower c] := by
  unfold pyLowerChar asciiLower
  split
  · rfl
  · rw [if_neg (by simp; omega)]

theorem pyLower_ascii : ∀ {t : List Nat}, (∀ c ∈ t, c < 128) →
    pyLower t = t.map asciiLower := by
  intro t h
  induction t with
  | nil => rfl
  | cons c rest ih =>
    show pyLowerChar c ++ pyLower rest = asciiLower c :: rest.map asciiLower
    rw [ih (fun x hx => h x (List.mem_cons_of_mem _ hx)),
      pyLowerChar_ascii (h c (List.mem_cons_self _ _))]
    rfl

theorem tokenizeLower_length_ascii {t : List Nat} (h : ∀ c ∈ t, c < 128) :
    (tokenizeLower t).length = (tokenize t).length := by
  rw [tokenizeLower, pyLower_ascii h, tokenize_map_lower, List.length_map]

theorem aggregate_total_words (docs : List ((List Nat) × PDoc)) :
    ∀ st : AggSt, (docs.foldl aggStep st).total_words =
      st.total_words + (docs.map (fun p => (tokenizeLower p.2.text).length)).sum := by
  induction docs with
  | nil => intro st; simp
  | cons p rest ih =>
    intro st
    rw [List.foldl_cons, ih (aggStep st p)]
    simp only [List.map_cons, List.sum_cons, aggStep]
    omega

theorem sum_lower_eq_sum_stored_ascii (docs : List ((List Nat) × PDoc))
    (hascii : ∀ p ∈ docs, ∀ c ∈ p.2.text, c < 128)
    (h : ∀ p ∈ docs,
      p.2.statistics.word_count = (computeStats p.2.text).word_count) :
    (docs.map (fun p => (tokenizeLower p.2.text).length)).sum =
      (docs.map (fun p => p.2.statistics.word_count)).sum := by
  induction docs with
  | nil => rfl
  | cons p rest ih =>
    simp only [List.map_cons, List.sum_cons]
    rw [ih (fun q hq => hascii q (List.mem_cons_of_mem _ hq))
        (fun q hq => h q (List.mem_cons_of_mem _ hq)),
      h p (List.mem_cons_self _ _)]
    have hwc : (computeStats p.2.text).word_count = (tokenize p.2.text).length := rfl
    rw [hwc, tokenizeLower_length_ascii (hascii p (List.mem_cons_self _ _))]

/-- C3 counterexample: for the processed document with extracted text "İa"
([304, 97], reachable since the bytes C4 B0 61 decode cleanly and strip_html
passes the characters through), the Processor stores word_count 1 (the single
token "İa"), but the Analyzer lowers the text first and CPython's lower()
expands U+0130 to i + U+0307; the combining mark is not a word character, so
the report counts the 2 tokens "i" and "a": total_words differs from the
stored sum. -/
theorem total_words_unicode_counterexample :
    (reportOf [([112], docWithText [304, 97])] [116]).total_words = 2 ∧
    ([([112], docWithText [304, 97])].map
      (fun p => p.2.statistics.word_count)).sum = 1 ∧
    (2 : Nat) ≠ 1 := by
  refine ⟨?_, ?_, by omega⟩
  · simp [reportOf, aggregate, aggStep, initAgg, docWithText, tokenizeLower,
      pyLower, pyLowerChar, tokenize, isWordChar]
  · simp [docWithText, computeStats, tokenize, isWordChar]

/-- C3 (amended): for every corpus of processed documents whose extracted
texts consist of ASCII characters (code points below 128), the total_words
field of the corpus report equals the sum, over all successfully loaded
documents, of the stored per-document statistics.word_count values that the
Processor computed for the same text.  (On non-ASCII text the two stages can
disagree, because the Analyzer counts tokens of text.lower() and Unicode
lower-casing can change the token structure.) -/
theorem report_total_words_eq_sum_stored_ascii (docs : List ((List Nat) × PDoc))
    (ts : List Nat)
    (hascii : ∀ p ∈ docs, ∀ c ∈ p.2.text, c < 128)
    (h : ∀ p ∈ docs,
      p.2.statistics.word_count = (computeStats p.2.text).word_count) :
    (reportOf docs ts).total_words =
      (docs.map (fun p => p.2.statistics.word_count)).sum := by
  have hrep : (reportOf docs ts).total_words =
      (docs.map (fun p => (tokenizeLower p.2.text).length)).sum := by
    show (aggregate docs).total_words = _
    rw [aggregate, aggregate_total_words docs initAgg]
    simp [initAgg]
  rw [hrep, sum_lower_eq_sum_stored_ascii docs hascii h]

/-- Witness for C3: the amended theorem applied to a concrete one-document
ASCII corpus whose stored statistics are the Processor's, discharging both
hypotheses there. -/
theorem report_total_words_ascii_witness :
    (reportOf [([112], docWithText [97, 98, 32, 99])] [116]).total_words =
      ([([112], docWithText [97, 98, 32, 99])].map
        (fun p => p.2.statistics.word_count)).sum :=
  report_total_words_eq_sum_stored_ascii _ _
    (by
      intro p hp
      simp only [List.mem_singleton] at hp
      subst hp
      intro c hc
      have hm : c ∈ [97, 98, 32, 99] := by simpa [docWithText] using hc
      fin_cases hm <;> norm_num)
    (by
      intro p hp
      simp only [List.mem_singleton] at hp
      subst hp
      rfl)

theorem head?_dropWhile_false {p : Nat → Bool} {l : List Nat} {c : Nat}
    (h : (l.dropWhile p).head? = some c) : p c = false := by
  induction l with
  | nil => simp [List.dropWhile] at h
  | cons a as ih =>
    rw [List.dropWhile_cons] at h
    split at h
    · exact ih h
    · rename_i hp
      simp only [List.head?_cons, Option.some.injEq] at h
      subst h
      simpa using hp

theorem stripList_eq_nil_iff {l : List Nat} :
    stripList l = [] ↔ ∀ x ∈ l, isPyWs x = true := by
  unfold stripList
  rw [List.reverse_eq_nil_iff, List.dropWhile_eq_nil_iff]
  constructor
  · intro h x hx
    by_cases hxw : isPyWs x = true
    · exact hxw
    · exfalso
      have hsplit : l.takeWhile isPyWs ++ l.dropWhile isPyWs = l :=
        List.takeWhile_append_dropWhile isPyWs l
      rw [← hsplit] at hx
      rcases List.mem_append.mp hx with hx | hx
      · exact hxw (List.mem_takeWhile_imp hx)
      · exact hxw (h x (List.mem_reverse.mpr hx))
  · intro h x hx
    exact h x ((List.dropWhile_sublist isPyWs).subset (List.mem_reverse.mp hx))

theorem stripList_head_not_ws {l : List Nat} {c : Nat}
    (h : (stripList l).head? = some c) : isPyWs c = false := by
  unfold stripList at h
  rw [List.head?_reverse] at h
  have hne : (((l.dropWhile isPyWs).reverse).dropWhile isPyWs) ≠ [] := by
    intro hnil
    rw [hnil] at h
    simp at h
  have hsuf : ((l.dropWhile isPyWs).reverse).dropWhile isPyWs <:+
      (l.dropWhile isPyWs).reverse := List.dropWhile_suffix isPyWs
  obtain ⟨z, hz⟩ := hsuf
  have hX : (((l.dropWhile isPyWs).reverse)).getLast? = some c := by
    rw [← hz, List.getLast?_append_of_ne_nil z hne]
    exact h
  rw [List.getLast?_reverse] at hX
  exact head?_dropWhile_false hX

theorem stripList_getLast_not_ws {l : List Nat} {c : Nat}
    (h : (stripList l).getLast? = some c) : isPyWs c = false := by
  unfold stripList at h
  rw [List.getLast?_reverse] at h
  exact head?_dropWhile_false h

theorem splitNl2_ne_nil (l : List Nat) : splitNl2 l ≠ [] := by
  cases l with
  | nil => simp [splitNl2]
  | cons c rest =>
    rw [splitNl2]
    split
    · simp
    · cases hsr : splitNl2 rest <;> simp

theorem splitNl2_cons_head {c : Nat} {rest : List Nat}
    (hc : ¬(c = 10 ∧ rest.head? = some 10)) :
    ∃ s ss, splitNl2 (c :: rest) = (c :: s) :: ss := by
  rw [splitNl2, if_neg hc]
  cases hsr : splitNl2 rest with
  | nil => exact absurd hsr (splitNl2_ne_nil rest)
  | cons s ss => exact ⟨s, ss, rfl⟩

/-- C7: the per-document paragraph_count is 0 iff the text is empty or
whitespace-only; for non-whitespace text it is at least 1 and equals the
number of blocks containing a non-whitespace character among the blocks
separated by runs of 2+ newlines. -/
theorem paragraph_count_correct (t : List Nat) :
    (countParagraphs t = 0 ↔ stripList t = []) ∧
    (stripList t ≠ [] → 1 ≤ countParagraphs t) ∧
    (stripList t ≠ [] → countParagraphs t =
      ((splitNl2 (stripList t)).filter (fun p => !(stripList p).isEmpty)).length) := by
  by_cases hs : stripList t = []
  · simp [countParagraphs, hs]
  · obtain ⟨c, s, hcs⟩ : ∃ c s, stripList t = c :: s := by
      cases h : stripList t with
      | nil => exact absurd h hs
      | cons c s => exact ⟨c, s, rfl⟩
    have hc : isPyWs c = false := stripList_head_not_ws (by rw [hcs]; rfl)
    have hc10 : c ≠ 10 := by
      intro h
      rw [h] at hc
      simp [isPyWs] at hc
    have hcond : ¬(c = 10 ∧ s.head? = some 10) := fun hx => hc10 hx.1
    obtain ⟨s1, ss, hsplit⟩ := splitNl2_cons_head hcond
    have hmem : (c :: s1) ∈ splitNl2 (stripList t) := by
      rw [hcs, hsplit]
      exact List.mem_cons_self _ _
    have hpred : (fun p => !(stripList p).isEmpty) (c :: s1) = true := by
      show (!(stripList (c :: s1)).isEmpty) = true
      suffices hne : stripList (c :: s1) ≠ [] by
        simpa [List.isEmpty_iff] using hne
      intro hnil
      have hall := stripList_eq_nil_iff.mp hnil c (List.mem_cons_self _ _)
      simp [hall] at hc
    have hcount : countParagraphs t =
        ((splitNl2 (stripList t)).filter (fun p => !(stripList p).isEmpty)).length := by
      rw [countParagraphs, if_neg hs]
    have hpos : 0 <
        ((splitNl2 (stripList t)).filter (fun p => !(stripList p).isEmpty)).length := by
      rw [List.length_pos]
      intro hfil
      have hmf : (c :: s1) ∈ (splitNl2 (stripList t)).filter
          (fun p => !(stripList p).isEmpty) := List.mem_filter.mpr ⟨hmem, hpred⟩
      rw [hfil] at hmf
      exact List.not_mem_nil _ hmf
    refine ⟨⟨fun h0 => ?_, fun h0 => absurd h0 hs⟩, fun _ => ?_, fun _ => hcount⟩
    · rw [hcount] at h0
      omega
    · rw [hcount]
      omega

/-- Witness for C7: the theorem applied at the concrete non-whitespace text
"a", discharging the non-emptiness hypotheses there. -/
theorem paragraph_count_witness :
    stripList [97] ≠ [] ∧ 1 ≤ countParagraphs [97] :=
  ⟨by simp [stripList, isPyWs], (paragraph_count_correct [97]).2.1
    (by simp [stripList, isPyWs])⟩


theorem aggregate_fields (docs : List ((List Nat) × PDoc)) :
    ∀ st : AggSt,
      (docs.foldl aggStep st).all_sentences =
        st.all_sentences + (docs.map (fun p => (sentencesIn p.2.text).length)).sum ∧
      (docs.foldl aggStep st).total_sentence_len_words =
        st.total_sentence_len_words + (docs.map (fun p =>
          ((sentencesIn p.2.text).map (fun s => (tokenizeLower s).length)).sum)).sum ∧
      (docs.foldl aggStep st).total_word_len =
        st.total_word_len + (docs.map (fun p =>
          ((tokenizeLower p.2.text).map List.length).sum)).sum := by
  induction docs with
  | nil => intro st; simp
  | cons p rest ih =>
    intro st
    obtain ⟨i1, i2, i3⟩ := ih (aggStep st p)
    rw [List.foldl_cons]
    refine ⟨?_, ?_, ?_⟩
    · rw [i1]
      simp only [aggStep, List.map_cons, List.sum_cons]
      omega
    · rw [i2]
      simp only [aggStep, List.map_cons, List.sum_cons]
      omega
    · rw [i3]
      simp only [aggStep, List.map_cons, List.sum_cons]
      omega

/-- C9 (amended): the readability values stored in the report are the spec's
exact formulas — words-in-sentences over sentence count (0 if none), token
character sum over token count (0 if none), and their product (0 if either
factor is 0) — each rounded to 3 decimal places. -/
theorem readability_formula (docs : List ((List Nat) × PDoc)) (ts : List Nat) :
    (reportOf docs ts).readability =
      (let nS := (docs.map (fun p => (sentencesIn p.2.text).length)).sum
       let sS := (docs.map (fun p =>
         ((sentencesIn p.2.text).map (fun s => (tokenizeLower s).length)).sum)).sum
       let nW := (docs.map (fun p => (tokenizeLower p.2.text).length)).sum
       let sW := (docs.map (fun p => ((tokenizeLower p.2.text).map List.length).sum)).sum
       let A : ℚ := if nS = 0 then 0 else (sS : ℚ) / (nS : ℚ)
       let W : ℚ := if nW = 0 then 0 else (sW : ℚ) / (nW : ℚ)
       { avg_sentence_length := pyRound 3 A
         avg_word_length := pyRound 3 W
         complexity_score := pyRound 3 (if A ≠ 0 ∧ W ≠ 0 then A * W else 0) }) := by
  obtain ⟨h1, h2, h3⟩ := aggregate_fields docs initAgg
  have h4 := aggregate_total_words docs initAgg
  simp only [reportOf, aggregate, initAgg] at *
  simp only [h1, h2, h3, h4, Nat.zero_add]

theorem aggStep_congr {st : AggSt} {p q : (List Nat) × PDoc}
    (h1 : p.1 = q.1) (h2 : p.2.text = q.2.text) : aggStep st p = aggStep st q := by
  unfold aggStep
  rw [h1, h2]

theorem aggregate_congr : ∀ docs1 docs2 : List ((List Nat) × PDoc),
    docs1.map (fun p => (p.1, p.2.text)) = docs2.map (fun p => (p.1, p.2.text)) →
    ∀ st, docs1.foldl aggStep st = docs2.foldl aggStep st := by
  intro docs1
  induction docs1 with
  | nil =>
    intro docs2 h st
    cases docs2 with
    | nil => rfl
    | cons q r2 => simp at h
  | cons p rest ih =>
    intro docs2 h st
    cases docs2 with
    | nil => simp at h
    | cons q rest2 =>
      simp only [List.map_cons, List.cons.injEq, Prod.mk.injEq] at h
      obtain ⟨⟨hn, ht⟩, hrest⟩ := h
      rw [List.foldl_cons, List.foldl_cons, aggStep_congr hn ht]
      exact ih rest2 hrest _

theorem pairsOf_map {α β : Type} (f : α → β) (l : List α) :
    pairsOf (l.map f) = (pairsOf l).map (fun q => (f q.1, f q.2)) := by
  induction l with
  | nil => rfl
  | cons x xs ih =>
    simp only [List.map_cons, pairsOf, ih, List.map_append, List.map_map]
    rfl

/-- C10: the Aggregator re-derives every aggregate from the records'
filenames and "text" fields alone; the stored statistics, links and images
fields have no influence on any report field except processing_timestamp. -/
theorem aggregator_reads_only_text (docs1 docs2 : List ((List Nat) × PDoc))
    (ts1 ts2 : List Nat)
    (h : docs1.map (fun p => (p.1, p.2.text)) =
      docs2.map (fun p => (p.1, p.2.text))) :
    (reportOf docs1 ts1).body = (reportOf docs2 ts2).body := by
  have hagg : aggregate docs1 = aggregate docs2 := aggregate_congr docs1 docs2 h initAgg
  have hlen : docs1.length = docs2.length := by
    have hc := congrArg List.length h
    simpa using hc
  have hfst : docs1.map Prod.fst = docs2.map Prod.fst := by
    have hc := congrArg (List.map Prod.fst) h
    simpa [List.map_map, Function.comp] using hc
  have key : ∀ (docs : List ((List Nat) × PDoc)) (W : List (List Nat × List (List Nat))),
      (pairsOf docs).map (fun q => SimEntry.mk q.1.1 q.2.1
          (pyRound 6 (jaccard_similarity (lookupLast W q.1.1) (lookupLast W q.2.1)))) =
      (pairsOf (docs.map Prod.fst)).map (fun q => SimEntry.mk q.1 q.2
          (pyRound 6 (jaccard_similarity (lookupLast W q.1) (lookupLast W q.2)))) := by
    intro docs W
    rw [pairsOf_map, List.map_map]
    rfl
  simp only [Report.body, reportOf]
  rw [hagg, hlen, key docs1, key docs2, hfst]

/-- Witness for C10: two one-document corpora with identical filename and
text but different stored statistics, links, images and timestamps yield
equal report bodies. -/
theorem aggregator_reads_only_text_witness :
    (reportOf [([112], docWithText [97])] [116]).body =
      (reportOf [([112], ({ source_file := [120], text := [97],
                            statistics := { word_count := 99, sentence_count := 99,
                                            paragraph_count := 99, avg_word_length := 9 },
                            links := [[104]], images := [[105]],
                            processed_at := [122] } : PDoc))] [117]).body :=
  aggregator_reads_only_text _ _ _ _ (by rfl)

/-- C9 counterexample: for the single document with text "a. b. c d." the
exact §4.6 formula gives avg_sentence_length = 4/3, but the report stores the
3-decimal rounding 1.333, which differs. -/
theorem readability_rounding_counterexample :
    (reportOf [([112], docWithText [97, 46, 32, 98, 46, 32, 99, 32, 100, 46])]
        [116]).readability.avg_sentence_length = 1333 / 1000 ∧
    ((([([112], docWithText [97, 46, 32, 98, 46, 32, 99, 32, 100, 46])].map
          (fun p => ((sentencesIn p.2.text).map
            (fun s => (tokenizeLower s).length)).sum)).sum : ℚ) /
        (([([112], docWithText [97, 46, 32, 98, 46, 32, 99, 32, 100, 46])].map
          (fun p => (sentencesIn p.2.text).length)).sum : ℚ) = 4 / 3) ∧
    (1333 : ℚ) / 1000 ≠ 4 / 3 := by
  refine ⟨?_, ?_, by norm_num⟩
  · simp only [reportOf, aggregate, List.foldl_cons, List.foldl_nil, aggStep,
      initAgg, docWithText]
    norm_num [tokenizeLower, pyLower, pyLowerChar, tokenize, sentencesIn,
      splitPunct, stripList, isPyWs, isSentPunct, isWordChar, pyRound,
      roundHalfEvenZ, ratFloorZ, Int.fdiv]
  · norm_num [tokenizeLower, pyLower, pyLowerChar, tokenize, sentencesIn,
      splitPunct, stripList, isPyWs, isSentPunct, isWordChar, docWithText]


theorem insDesc_mem (x a : List Nat × Nat) (l : List (List Nat × Nat)) :
    a ∈ insDesc x l ↔ a = x ∨ a ∈ l := by
  induction l with
  | nil => simp [insDesc]
  | cons y ys ih =>
    rw [insDesc]
    split
    · simp only [List.mem_cons, ih]
      try tauto
    · simp only [List.mem_cons]
      try tauto

theorem insDesc_pairwise {x : List Nat × Nat} {l : List (List Nat × Nat)}
    (h : l.Pairwise (fun a b => b.2 ≤ a.2)) :
    (insDesc x l).Pairwise (fun a b => b.2 ≤ a.2) := by
  induction l with
  | nil => simp [insDesc]
  | cons y ys ih =>
    rw [List.pairwise_cons] at h
    obtain ⟨hy, hys⟩ := h
    rw [insDesc]
    split
    · rename_i hlt
      rw [List.pairwise_cons]
      refine ⟨?_, ih hys⟩
      intro a ha
      rcases (insDesc_mem x a ys).mp ha with rfl | ha
      · omega
      · exact hy a ha
    · rename_i hge
      rw [List.pairwise_cons]
      refine ⟨?_, List.pairwise_cons.mpr ⟨hy, hys⟩⟩
      intro a ha
      rcases List.mem_cons.mp ha with rfl | ha
      · omega
      · have := hy a ha
        omega

theorem sortCountDesc_sorted (m : List (List Nat × Nat)) :
    (sortCountDesc m).Pairwise (fun a b => b.2 ≤ a.2) := by
  induction m with
  | nil => simp [sortCountDesc]
  | cons a l ih =>
    rw [sortCountDesc, List.foldr_cons]
    exact insDesc_pairwise ih

theorem insDesc_filter_eq (x : List Nat × Nat) (l : List (List Nat × Nat))
    (c : Nat) (hx : x.2 = c) :
    (insDesc x l).filter (fun e => e.2 == c) =
      x :: l.filter (fun e => e.2 == c) := by
  induction l with
  | nil => simp [insDesc, List.filter_cons, hx]
  | cons y ys ih =>
    rw [insDesc]
    split
    · rename_i hlt
      have hy : (y.2 == c) = false := by
        simp only [beq_eq_false_iff_ne, Ne]
        omega
      simp only [List.filter_cons, hy, ih, Bool.false_eq_true, if_false]
    · simp only [List.filter_cons, hx, beq_self_eq_true, if_true]

theorem insDesc_filter_ne (x : List Nat × Nat) (l : List (List Nat × Nat))
    (c : Nat) (hx : x.2 ≠ c) :
    (insDesc x l).filter (fun e => e.2 == c) = l.filter (fun e => e.2 == c) := by
  have hxb : (x.2 == c) = false := by
    simp only [beq_eq_false_iff_ne, Ne]
    exact hx
  induction l with
  | nil => simp [insDesc, List.filter_cons, hxb]
  | cons y ys ih =>
    rw [insDesc]
    split
    · simp only [List.filter_cons, ih]
    · simp only [List.filter_cons, hxb, Bool.false_eq_true, if_false]

theorem sortCountDesc_stable (m : List (List Nat × Nat)) (c : Nat) :
    (sortCountDesc m).filter (fun e => e.2 == c) =
      m.filter (fun e => e.2 == c) := by
  induction m with
  | nil => rfl
  | cons a l ih =>
    rw [sortCountDesc, List.foldr_cons]
    have hfold : List.foldr insDesc [] l = sortCountDesc l := rfl
    by_cases ha : a.2 = c
    · rw [insDesc_filter_eq a _ c ha, hfold, ih, List.filter_cons]
      simp [ha]
    · rw [insDesc_filter_ne a _ c ha, hfold, ih, List.filter_cons]
      simp [ha]

theorem map_entry_pair (l : List (List Nat × Nat)) (f : Nat → ℚ) :
    (l.map (fun wc =>
      ({ word := wc.1, count := wc.2, frequency := f wc.2 } : WordEntry))).map
      (fun e => (e.word, e.count)) = l := by
  induction l with
  | nil => rfl
  | cons x xs ih => simp [ih]

theorem map_gram_pair (l : List (List Nat × Nat)) :
    (l.map (fun wc => ({ gram := wc.1, count := wc.2 } : GramEntry))).map
      (fun e => (e.gram, e.count)) = l := by
  induction l with
  | nil => rfl
  | cons x xs ih => simp [ih]

/-- C1 (amended): each top-K table (top 100 words, top 50 bigrams, top 50
trigrams) consists of the first K entries of the stable descending-by-count
sort of the corresponding count table: counts are non-increasing, and entries
with equal counts appear in first-occurrence (counter insertion) order — not
in lexicographic ascending order. -/
theorem top_tables_stable_sort (docs : List ((List Nat) × PDoc)) (ts : List Nat) :
    ((reportOf docs ts).top_100_words.map (fun e => (e.word, e.count)) =
        mostCommon 100 (aggregate docs).vocab) ∧
    ((reportOf docs ts).top_bigrams.map (fun e => (e.gram, e.count)) =
        mostCommon 50 (aggregate docs).bigrams) ∧
    ((reportOf docs ts).top_trigrams.map (fun e => (e.gram, e.count)) =
        mostCommon 50 (aggregate docs).trigrams) ∧
    (∀ m : List (List Nat × Nat),
      (sortCountDesc m).Pairwise (fun a b => b.2 ≤ a.2) ∧
      ∀ c, (sortCountDesc m).filter (fun e => e.2 == c) =
        m.filter (fun e => e.2 == c)) := by
  refine ⟨?_, ?_, ?_,
    fun m => ⟨sortCountDesc_sorted m, fun c => sortCountDesc_stable m c⟩⟩
  · exact map_entry_pair (mostCommon 100 (aggregate docs).vocab)
      (fun n => if (aggregate docs).total_words = 0 then 0
        else (n : ℚ) / ((aggregate docs).total_words : ℚ))
  · exact map_gram_pair (mostCommon 50 (aggregate docs).bigrams)
  · exact map_gram_pair (mostCommon 50 (aggregate docs).trigrams)

/-- C1 counterexample: for the single document with text "b a" both tokens
have count 1; `most_common` returns the tie in first-occurrence order
[("b",1),("a",1)], while the claimed lexicographic ascending tie-break would
give [("a",1),("b",1)]. -/
theorem top_words_tiebreak_counterexample :
    (reportOf [([112], docWithText [98, 32, 97])] [116]).top_100_words.map
        (fun e => (e.word, e.count)) = [([98], 1), ([97], 1)] ∧
    specMostCommon 100 (aggregate [([112], docWithText [98, 32, 97])]).vocab =
      [([97], 1), ([98], 1)] ∧
    ([([98], 1), ([97], 1)] : List (List Nat × Nat)) ≠ [([97], 1), ([98], 1)] := by
  refine ⟨?_, ?_, by decide⟩
  · simp [reportOf, aggregate, aggStep, initAgg, docWithText, tokenizeLower,
      pyLower, pyLowerChar, tokenize, isWordChar, cAddAll, cAdd, mostCommon,
      sortCountDesc, insDesc, List.map_map]
  · simp [aggregate, aggStep, initAgg, docWithText, tokenizeLower, pyLower,
      pyLowerChar, tokenize, isWordChar, cAddAll, cAdd, specMostCommon,
      insSpecTop, lexLt]


theorem wsdel_refl (l : List Nat) : WsDel l l := by
  induction l with
  | nil => exact WsDel.nil
  | cons c rest ih => exact WsDel.keep c ih

theorem wsdel_nil_right {l' : List Nat} (h : WsDel l' []) : l' = [] := by
  cases h
  rfl

theorem wsdel_mem62 {l' l : List Nat} (h : WsDel l' l) (hm : 62 ∈ l') : 62 ∈ l := by
  induction h with
  | nil => exact hm
  | keep c hw ih =>
    rcases List.mem_cons.mp hm with h62 | hm'
    · rw [h62]
      exact List.mem_cons_self _ _
    · exact List.mem_cons_of_mem _ (ih hm')
  | del hc60 hc62 hw ih => exact List.mem_cons_of_mem _ (ih hm)
  | @rep c c' l' l hc60 hc62 hc60' hc62' hw ih =>
    rcases List.mem_cons.mp hm with h62 | hm'
    · exact absurd h62.symm hc62'
    · exact List.mem_cons_of_mem _ (ih hm')

theorem wsdel_inv62 {l' t : List Nat} (h : WsDel l' (62 :: t)) :
    ∃ t', l' = 62 :: t' ∧ WsDel t' t := by
  cases h with
  | keep c hw => exact ⟨_, rfl, hw⟩
  | del hc60 hc62 hw => exact absurd rfl hc62
  | rep hc60 hc62 hc60' hc62' hw => exact absurd rfl hc62

theorem tagStart_false_of_not_mem {l : List Nat} (h : 62 ∉ l) :
    tagStart l = false := by
  cases l with
  | nil => rfl
  | cons d r =>
    have hr : 62 ∉ r := fun hm => h (List.mem_cons_of_mem _ hm)
    simp only [tagStart, Bool.and_eq_false_iff]
    right
    simpa using hr

theorem hasTag_cons (c : Nat) (l : List Nat) :
    hasTag (c :: l) = (((c == 60) && tagStart l) || hasTag l) := rfl

theorem tagStart_wsdel {l' l : List Nat} (hw : WsDel l' l)
    (h : tagStart l = false) : tagStart l' = false := by
  cases l with
  | nil =>
    rw [wsdel_nil_right hw]
    rfl
  | cons d t =>
    by_cases hd : d = 62
    · subst hd
      obtain ⟨t', rfl, _⟩ := wsdel_inv62 hw
      simp [tagStart]
    · have hnr : 62 ∉ t := by
        simp only [tagStart, Bool.and_eq_false_iff] at h
        rcases h with h | h
        · simp at h
          exact absurd h hd
        · simpa using h
      have hnl : 62 ∉ d :: t := by
        intro hm
        rcases List.mem_cons.mp hm with h62 | hm'
        · exact hd h62.symm
        · exact hnr hm'
      exact tagStart_false_of_not_mem (fun hm => hnl (wsdel_mem62 hw hm))

theorem wsdel_hasTag {l' l : List Nat} (hw : WsDel l' l)
    (h : hasTag l = false) : hasTag l' = false := by
  induction hw with
  | nil => rfl
  | @keep c l' l hw ih =>
    rw [hasTag_cons] at h ⊢
    simp only [Bool.or_eq_false_iff, Bool.and_eq_false_iff] at h ⊢
    obtain ⟨h1, h2⟩ := h
    refine ⟨?_, ih h2⟩
    rcases h1 with h1 | h1
    · exact Or.inl h1
    · exact Or.inr (tagStart_wsdel hw h1)
  | del hc60 hc62 hw ih =>
    rw [hasTag_cons] at h
    simp only [Bool.or_eq_false_iff] at h
    exact ih h.2
  | @rep c c' l' l hc60 hc62 hc60' hc62' hw ih =>
    rw [hasTag_cons] at h ⊢
    simp only [Bool.or_eq_false_iff, Bool.and_eq_false_iff] at h ⊢
    refine ⟨Or.inl ?_, ih h.2⟩
    simpa using hc60'

theorem wsdel_of_dropWhile {p : Nat → Bool}
    (hp : ∀ x, p x = true → x ≠ 60 ∧ x ≠ 62) :
    ∀ {m l : List Nat}, WsDel m (l.dropWhile p) → WsDel m l := by
  intro m l
  induction l with
  | nil => simp [List.dropWhile]
  | cons c rest ih =>
    intro h
    rw [List.dropWhile_cons] at h
    split at h
    · rename_i hc
      exact WsDel.del (hp c hc).1 (hp c hc).2 (ih h)
    · exact h

theorem wsdel_crToLf (l : List Nat) : WsDel (crToLf l) l := by
  induction l with
  | nil => exact WsDel.nil
  | cons c rest ih =>
    unfold crToLf
    rw [List.map_cons]
    by_cases hc : c = 13
    · subst hc
      simp only [beq_self_eq_true, if_true]
      exact WsDel.rep (by omega) (by omega) (by omega) (by omega) ih
    · have : ((c == 13) : Bool) = false := by simpa using hc
      rw [this]
      simp only [Bool.false_eq_true, if_false]
      exact WsDel.keep c ih

theorem ten_not_tag (x : Nat) (hx : (x == 10) = true) : x ≠ 60 ∧ x ≠ 62 := by
  simp at hx
  omega

theorem wsdel_collapseNl2 (l : List Nat) : WsDel (collapseNl2 l) l := by
  induction l using collapseNl2.induct with
  | case1 =>
    rw [collapseNl2]
    exact WsDel.nil
  | case2 c rest h ih =>
    obtain ⟨hc, hh⟩ := h
    subst hc
    rw [collapseNl2, if_pos ⟨rfl, hh⟩]
    cases rest with
    | nil => simp at hh
    | cons r0 rt =>
      simp only [List.head?_cons, Option.some.injEq] at hh
      subst hh
      exact WsDel.keep 10 (WsDel.keep 10 (wsdel_of_dropWhile ten_not_tag ih))
  | case3 c rest h ih =>
    rw [collapseNl2, if_neg h]
    exact WsDel.keep c ih

theorem wsdel_collapseNl3 (l : List Nat) : WsDel (collapseNl3 l) l := by
  induction l using collapseNl3.induct with
  | case1 =>
    rw [collapseNl3]
    exact WsDel.nil
  | case2 c rest h ih =>
    obtain ⟨hc, hh, hh2⟩ := h
    subst hc
    rw [collapseNl3, if_pos ⟨rfl, hh, hh2⟩]
    cases rest with
    | nil => simp at hh
    | cons r0 rt =>
      simp only [List.head?_cons, Option.some.injEq] at hh
      subst hh
      cases rt with
      | nil => simp at hh2
      | cons r1 rt2 =>
        simp only [List.tail_cons, List.head?_cons, Option.some.injEq] at hh2
        subst hh2
        exact WsDel.keep 10 (WsDel.keep 10 (WsDel.del (by omega) (by omega)
          (wsdel_of_dropWhile ten_not_tag ih)))
  | case3 c rest h ih =>
    rw [collapseNl3, if_neg h]
    exact WsDel.keep c ih

theorem hws_not_tag (x : Nat) (hx : isHWs x = true) : x ≠ 60 ∧ x ≠ 62 := by
  simp [isHWs] at hx
  omega

theorem wsdel_collapseHWs (l : List Nat) : WsDel (collapseHWs l) l := by
  induction l using collapseHWs.induct with
  | case1 =>
    rw [collapseHWs]
    exact WsDel.nil
  | case2 c rest h ih =>
    rw [collapseHWs, if_pos h]
    exact WsDel.rep (hws_not_tag c h).1 (hws_not_tag c h).2 (by omega) (by omega)
      (wsdel_of_dropWhile hws_not_tag ih)
  | case3 c rest h ih =>
    rw [collapseHWs, if_neg h]
    exact WsDel.keep c ih


theorem wsdel_append {a b c d : List Nat} (h1 : WsDel a b) (h2 : WsDel c d) :
    WsDel (a ++ c) (b ++ d) := by
  induction h1 with
  | nil => simpa using h2
  | keep x hw ih => exact WsDel.keep x ih
  | del hx60 hx62 hw ih => exact WsDel.del hx60 hx62 ih
  | rep hx60 hx62 hx60' hx62' hw ih => exact WsDel.rep hx60 hx62 hx60' hx62' ih

theorem wsdel_snoc_keep {a b : List Nat} (c : Nat) (h : WsDel a b) :
    WsDel (a ++ [c]) (b ++ [c]) :=
  wsdel_append h (WsDel.keep c WsDel.nil)

theorem wsdel_snoc_del {a b : List Nat} {c : Nat} (hc60 : c ≠ 60)
    (hc62 : c ≠ 62) (h : WsDel a b) : WsDel a (b ++ [c]) := by
  have hd := wsdel_append h (WsDel.del hc60 hc62 WsDel.nil)
  simpa using hd

theorem wsdel_reverse {a b : List Nat} (h : WsDel a b) :
    WsDel a.reverse b.reverse := by
  induction h with
  | nil => exact WsDel.nil
  | keep x hw ih =>
    simpa [List.reverse_cons] using wsdel_snoc_keep x ih
  | del hx60 hx62 hw ih =>
    simpa [List.reverse_cons] using wsdel_snoc_del hx60 hx62 ih
  | @rep x x' l' l hx60 hx62 hx60' hx62' hw ih =>
    simp only [List.reverse_cons]
    exact wsdel_append ih (WsDel.rep hx60 hx62 hx60' hx62' WsDel.nil)

theorem pyws_not_tag (x : Nat) (hx : isPyWs x = true) : x ≠ 60 ∧ x ≠ 62 := by
  simp [isPyWs] at hx
  omega

theorem wsdel_stripList (l : List Nat) : WsDel (stripList l) l := by
  unfold stripList
  apply wsdel_of_dropWhile pyws_not_tag
  have h1 : WsDel (((l.dropWhile isPyWs).reverse.dropWhile isPyWs))
      ((l.dropWhile isPyWs).reverse) :=
    wsdel_of_dropWhile pyws_not_tag (wsdel_refl _)
  have h2 := wsdel_reverse h1
  rwa [List.reverse_reverse] at h2

theorem splitNl_ne_nil (l : List Nat) : splitNl l ≠ [] := by
  cases l with
  | nil => simp [splitNl]
  | cons c rest =>
    rw [splitNl]
    split
    · simp
    · cases hsr : splitNl rest <;> simp

theorem joinNl_splitNl (l : List Nat) : joinNl (splitNl l) = l := by
  induction l with
  | nil => rfl
  | cons c rest ih =>
    by_cases hc : c = 10
    · subst hc
      rw [splitNl, if_pos rfl]
      cases hsr : splitNl rest with
      | nil => exact absurd hsr (splitNl_ne_nil rest)
      | cons s ss =>
        rw [hsr] at ih
        show ([] : List Nat) ++ 10 :: joinNl (s :: ss) = 10 :: rest
        simpa using ih
    · rw [splitNl, if_neg hc]
      cases hsr : splitNl rest with
      | nil => exact absurd hsr (splitNl_ne_nil rest)
      | cons s ss =>
        rw [hsr] at ih
        cases ss with
        | nil =>
          show c :: s = c :: rest
          rw [show joinNl [s] = s from rfl] at ih
          rw [ih]
        | cons y ys =>
          show (c :: s) ++ 10 :: joinNl (y :: ys) = c :: rest
          rw [show joinNl (s :: y :: ys) = s ++ 10 :: joinNl (y :: ys) from rfl] at ih
          rw [← ih]
          simp

theorem wsdel_joinNl_map (parts : List (List Nat)) :
    WsDel (joinNl (parts.map stripList)) (joinNl parts) := by
  induction parts with
  | nil => exact WsDel.nil
  | cons x xs ih =>
    cases xs with
    | nil => exact wsdel_stripList x
    | cons y ys =>
      show WsDel (stripList x ++ 10 :: joinNl ((y :: ys).map stripList))
        (x ++ 10 :: joinNl (y :: ys))
      exact wsdel_append (wsdel_stripList x) (WsDel.keep 10 ih)

theorem wsdel_stripLines (l : List Nat) : WsDel (stripLines l) l := by
  have h := wsdel_joinNl_map (splitNl l)
  rwa [joinNl_splitNl] at h

theorem afterGt_none {l : List Nat} (h : afterGt l = none) : 62 ∉ l := by
  induction l with
  | nil => simp
  | cons c r ih =>
    rw [afterGt] at h
    split at h
    · simp at h
    · rename_i hc
      simp only [List.mem_cons]
      rintro (h62 | hm)
      · exact hc (by rw [← h62]; rfl)
      · exact ih h hm

theorem afterGt_mem {l r : List Nat} (h : afterGt l = some r) {x : Nat}
    (hx : x ∈ r) : x ∈ l := by
  induction l with
  | nil => simp [afterGt] at h
  | cons c cr ih =>
    rw [afterGt] at h
    split at h
    · injection h with h
      subst h
      exact List.mem_cons_of_mem _ hx
    · exact List.mem_cons_of_mem _ (ih h)

theorem tagSkip_mem {l r : List Nat} (h : tagSkip l = some r) {x : Nat}
    (hx : x ∈ r) : x ∈ l := by
  cases l with
  | nil => simp [tagSkip] at h
  | cons d r0 =>
    rw [tagSkip] at h
    split at h
    · simp at h
    · exact List.mem_cons_of_mem _ (afterGt_mem h hx)

theorem mem_removeTags {l : List Nat} {x : Nat} (hx : x ∈ removeTags l) :
    x = 32 ∨ x ∈ l := by
  induction l using removeTags.induct with
  | case1 =>
    rw [removeTags] at hx
    simp at hx
  | case2 c rest hc r hr ih =>
    rw [removeTags, if_pos hc, hr] at hx
    rcases List.mem_cons.mp hx with h32 | hx'
    · exact Or.inl h32
    · rcases ih hx' with h32 | hmem
      · exact Or.inl h32
      · exact Or.inr (List.mem_cons_of_mem _ (tagSkip_mem hr hmem))
  | case3 c rest hc hr ih =>
    rw [removeTags, if_pos hc, hr] at hx
    rcases List.mem_cons.mp hx with hcx | hx'
    · exact Or.inr (by rw [hcx]; exact List.mem_cons_self _ _)
    · rcases ih hx' with h32 | hmem
      · exact Or.inl h32
      · exact Or.inr (List.mem_cons_of_mem _ hmem)
  | case4 c rest hc ih =>
    rw [removeTags, if_neg hc] at hx
    rcases List.mem_cons.mp hx with hcx | hx'
    · exact Or.inr (by rw [hcx]; exact List.mem_cons_self _ _)
    · rcases ih hx' with h32 | hmem
      · exact Or.inl h32
      · exact Or.inr (List.mem_cons_of_mem _ hmem)

theorem removeTags_hasTag (l : List Nat) : hasTag (removeTags l) = false := by
  induction l using removeTags.induct with
  | case1 =>
    rw [removeTags]
    rfl
  | case2 c rest hc r hr ih =>
    rw [removeTags, if_pos hc, hr, hasTag_cons]
    simpa using ih
  | case3 c rest hc hr ih =>
    rw [removeTags, if_pos hc, hr, hasTag_cons]
    simp only [Bool.or_eq_false_iff, Bool.and_eq_false_iff]
    refine ⟨Or.inr ?_, ih⟩
    cases rest with
    | nil =>
      rw [removeTags]
      rfl
    | cons d r0 =>
      rw [tagSkip] at hr
      split at hr
      · rename_i hd62
        have hd : d = 62 := by simpa using hd62
        subst hd
        rw [removeTags, if_neg (by simp)]
        simp [tagStart]
      · rename_i hd62
        have hnr0 : 62 ∉ r0 := afterGt_none hr
        have hnl : 62 ∉ d :: r0 := by
          simp only [List.mem_cons]
          rintro (h62 | hm)
          · exact hd62 (by rw [← h62]; rfl)
          · exact hnr0 hm
        apply tagStart_false_of_not_mem
        intro hm
        rcases mem_removeTags hm with h32 | hmem
        · omega
        · exact hnl hmem
  | case4 c rest hc ih =>
    rw [removeTags, if_neg hc, hasTag_cons]
    have hcb : ((c == 60) : Bool) = false := by simpa using hc
    rw [hcb]
    simpa using ih

theorem hasTriple_ne_cons {c : Nat} (X : List Nat) (hc : c ≠ 10) :
    hasTriple (c :: X) = hasTriple X := by
  cases X with
  | nil => rfl
  | cons x xs =>
    cases xs with
    | nil => rfl
    | cons y ys =>
      show (((c == 10) && (x == 10) && (y == 10)) || hasTriple (x :: y :: ys)) =
        hasTriple (x :: y :: ys)
      have hcb : ((c == 10) : Bool) = false := by simpa using hc
      rw [hcb]
      simp

theorem hasTriple_ten_cons {X : List Nat} (hX : X.head? ≠ some 10) :
    hasTriple (10 :: X) = hasTriple X := by
  cases X with
  | nil => rfl
  | cons x xs =>
    have hx : x ≠ 10 := by
      intro h
      exact hX (by rw [h]; rfl)
    cases xs with
    | nil => rfl
    | cons y ys =>
      show (((10 == 10) && (x == 10) && (y == 10)) || hasTriple (x :: y :: ys)) =
        hasTriple (x :: y :: ys)
      have hxb : ((x == 10) : Bool) = false := by simpa using hx
      rw [hxb]
      simp

theorem hasTriple_two_ten {X : List Nat} (hX : X.head? ≠ some 10) :
    hasTriple (10 :: 10 :: X) = hasTriple X := by
  cases X with
  | nil => rfl
  | cons x xs =>
    have hx : x ≠ 10 := by
      intro h
      exact hX (by rw [h]; rfl)
    have hxb : ((x == 10) : Bool) = false := by simpa using hx
    show (((10 == 10) && (10 == 10) && (x == 10)) || hasTriple (10 :: x :: xs)) =
      hasTriple (x :: xs)
    rw [hxb, hasTriple_ten_cons hX]
    simp

theorem collapseNl3_head (l : List Nat) : (collapseNl3 l).head? = l.head? := by
  cases l with
  | nil =>
    rw [collapseNl3]
  | cons c rest =>
    rw [collapseNl3]
    split
    · rename_i h
      rw [h.1]
      rfl
    · rfl

theorem head?_dropWhile_ten {l : List Nat} :
    (l.dropWhile (fun x => x == 10)).head? ≠ some 10 := by
  intro h
  have := head?_dropWhile_false h
  simp at this

theorem hasTriple_collapseNl3 (l : List Nat) :
    hasTriple (collapseNl3 l) = false := by
  induction l using collapseNl3.induct with
  | case1 =>
    rw [collapseNl3]
    rfl
  | case2 c rest h ih =>
    rw [collapseNl3, if_pos h]
    have hhead : (collapseNl3 (rest.tail.tail.dropWhile (fun x => x == 10))).head? ≠
        some 10 := by
      rw [collapseNl3_head]
      exact head?_dropWhile_ten
    rw [hasTriple_two_ten hhead]
    exact ih
  | case3 c rest h ih =>
    rw [collapseNl3, if_neg h]
    by_cases hc : c = 10
    · subst hc
      rcases hrh : rest.head? with _ | r0
      · cases rest with
        | nil =>
          rw [collapseNl3]
          rfl
        | cons a b => simp at hrh
      · by_cases hr0 : r0 = 10
        · subst hr0
          cases rest with
          | nil => simp at hrh
          | cons a b =>
            simp only [List.head?_cons, Option.some.injEq] at hrh
            subst hrh
            have hb : b.head? ≠ some 10 := by
              intro hb10
              exact h ⟨rfl, by simp, by simpa using hb10⟩
            have hyb : collapseNl3 (10 :: b) = 10 :: collapseNl3 b := by
              rw [collapseNl3, if_neg]
              intro hcon
              exact hb hcon.2.1
            rw [hyb] at ih ⊢
            have hzb : (collapseNl3 b).head? ≠ some 10 := by
              rw [collapseNl3_head]
              exact hb
            rw [hasTriple_two_ten hzb]
            rw [hasTriple_ten_cons hzb] at ih
            exact ih
        · have hyh : (collapseNl3 rest).head? ≠ some 10 := by
            rw [collapseNl3_head, hrh]
            intro hcon
            injection hcon with hcon
            exact hr0 hcon
          rw [hasTriple_ten_cons hyh]
          exact ih
    · rw [hasTriple_ne_cons _ hc]
      exact ih

theorem hasTriple_cons_of (a : Nat) {l : List Nat} (h : hasTriple l = true) :
    hasTriple (a :: l) = true := by
  cases l with
  | nil => simp [hasTriple] at h
  | cons x xs =>
    cases xs with
    | nil => simp [hasTriple] at h
    | cons y ys =>
      show (((a == 10) && (x == 10) && (y == 10)) || hasTriple (x :: y :: ys)) = true
      rw [h]
      simp

theorem hasTriple_append_left (s : List Nat) {l : List Nat}
    (h : hasTriple l = true) : hasTriple (s ++ l) = true := by
  induction s with
  | nil => simpa using h
  | cons a s' ih => exact hasTriple_cons_of a ih

theorem hasTriple_append_right : ∀ (x t : List Nat), hasTriple x = true →
    hasTriple (x ++ t) = true := by
  intro x
  induction x with
  | nil =>
    intro t h
    simp [hasTriple] at h
  | cons c1 rest ih =>
    intro t h
    cases rest with
    | nil => simp [hasTriple] at h
    | cons c2 rest2 =>
      cases rest2 with
      | nil => simp [hasTriple] at h
      | cons c3 rest3 =>
        have hx : (((c1 == 10) && (c2 == 10) && (c3 == 10)) ||
            hasTriple (c2 :: c3 :: rest3)) = true := h
        show (((c1 == 10) && (c2 == 10) && (c3 == 10)) ||
          hasTriple (c2 :: c3 :: (rest3 ++ t))) = true
        simp only [Bool.or_eq_true] at hx
        rcases hx with h1 | h2
        · simp only [Bool.or_eq_true]
          exact Or.inl h1
        · have := ih t h2
          rw [show (c2 :: c3 :: rest3) ++ t = c2 :: c3 :: (rest3 ++ t) from rfl] at this
          simp only [Bool.or_eq_true]
          exact Or.inr this

theorem stripList_decomp (l : List Nat) :
    l.takeWhile isPyWs ++ (stripList l ++
      ((l.dropWhile isPyWs).reverse.takeWhile isPyWs).reverse) = l := by
  have h2 : (l.dropWhile isPyWs).reverse.takeWhile isPyWs ++
      (l.dropWhile isPyWs).reverse.dropWhile isPyWs =
      (l.dropWhile isPyWs).reverse :=
    List.takeWhile_append_dropWhile isPyWs (l.dropWhile isPyWs).reverse
  have h3 := congrArg List.reverse h2
  rw [List.reverse_append, List.reverse_reverse] at h3
  unfold stripList
  rw [h3]
  exact List.takeWhile_append_dropWhile isPyWs l

theorem hasTriple_stripList {y : List Nat} (h : hasTriple y = false) :
    hasTriple (stripList y) = false := by
  cases hst : hasTriple (stripList y) with
  | false => rfl
  | true =>
    exfalso
    have hr := hasTriple_append_right (stripList y)
      (((y.dropWhile isPyWs).reverse.takeWhile isPyWs).reverse) hst
    have hl := hasTriple_append_left (y.takeWhile isPyWs) hr
    rw [stripList_decomp y] at hl
    rw [h] at hl
    simp at hl

theorem stripList_head_ok (l : List Nat) :
    (stripList l).head?.all (fun c => !isPyWs c) = true := by
  cases hh : (stripList l).head? with
  | none => rfl
  | some c =>
    have hws := stripList_head_not_ws hh
    simp [Option.all, hws]

theorem stripList_getLast_ok (l : List Nat) :
    (stripList l).getLast?.all (fun c => !isPyWs c) = true := by
  cases hh : (stripList l).getLast? with
  | none => rfl
  | some c =>
    have hws := stripList_getLast_not_ws hh
    simp [Option.all, hws]

/-- C6 (amended): for every input HTML string, the extracted text contains no
complete tag (no substring of the form `<`, one or more non-`>` characters,
`>`); stray unmatched `<` or `>` characters from malformed input may remain.
It contains no run of 3 or more consecutive newlines (runs of 2+ newlines are
collapsed to exactly one blank line), and it has no leading or trailing
whitespace. -/
theorem strip_html_text_clean (html : List Nat) :
    hasTag (stripHtmlText html) = false ∧
    hasTriple (stripHtmlText html) = false ∧
    (stripHtmlText html).head?.all (fun c => !isPyWs c) = true ∧
    (stripHtmlText html).getLast?.all (fun c => !isPyWs c) = true := by
  refine ⟨?_, ?_, stripList_head_ok _, stripList_getLast_ok _⟩
  · exact wsdel_hasTag (wsdel_stripList _)
      (wsdel_hasTag (wsdel_collapseNl3 _)
        (wsdel_hasTag (wsdel_stripLines _)
          (wsdel_hasTag (wsdel_collapseHWs _)
            (wsdel_hasTag (wsdel_collapseNl2 _)
              (wsdel_hasTag (wsdel_crToLf _)
                (removeTags_hasTag _))))))
  · exact hasTriple_stripList (hasTriple_collapseNl3 _)

/-- C6 counterexample: the malformed input "a < b" has an unmatched `<` with
no later `>`, which `re.sub(r'<[^>]+>', ' ', ...)` leaves in place: the
extracted text is "a < b" itself and contains the tag delimiter `<`
(code 60), contradicting the claim that extracted text never contains `<`. -/
theorem strip_html_delimiter_counterexample :
    stripHtmlText [97, 32, 60, 32, 98] = [97, 32, 60, 32, 98] ∧
      60 ∈ stripHtmlText [97, 32, 60, 32, 98] := by
  have h : stripHtmlText [97, 32, 60, 32, 98] = [97, 32, 60, 32, 98] := by
    simp [stripHtmlText, stripHtml, removeElems, tryElem, matchCI, strCodes,
      asciiLower, findAttrs, matchAttr, replaceLit, replaceBr, matchBr,
      replaceH, matchH, removeTags, tagSkip, afterGt, crToLf, collapseNl2,
      collapseHWs, stripLines, splitNl, joinNl, stripList, isPyWs, isHWs,
      collapseNl3]
  refine ⟨h, ?_⟩
  rw [h]
  decide


end Pipeline
